import Mathlib

/-!
Verification of the tokenAlert monitor (src/monitor.py).

The development shallowly embeds the core of the program: the amount
formatter (`format_token_amount`, built on Python `decimal.Decimal`
division and `normalize`), the query-result normalizers
(`fetch_transfers`, `fetch_aave_supply_logs`), the transfer filter
(`filter_incoming`), the Aave event decoder (`decode_supply_event`), and
the polling round of `monitor` (seen-set seeding/diffing, alerting,
bounded-set reset, block cursor advance).

External library calls are embedded as follows: the HTTP layer is an
oracle (`ApiResponse` holds the parsed JSON body or a transport/parse
failure, matching the try/except blocks of the fetch helpers); JSON
record fields are `Option String` (absent key = `none`); Python
exceptions that the monitor does not catch are surfaced as
`Except PyErr`. Python numeric-literal parsing (`int(s)`, `int(s, 16)`,
`Decimal(s)`) is modelled for sign/digit/point/exponent forms; the
whitespace/underscore liberality and the Infinity/NaN literals of the
Python parsers are outside the model and no theorem exercises them.
-/

namespace Monitor

/-! ## Characters, digit strings and Python integer-literal parsing -/

/-- Lowercase one ASCII character, as Python `str.lower` does on the
ASCII addresses this program compares. -/
def lowerChar (c : Char) : Char :=
  if 'A' ≤ c ∧ c ≤ 'Z' then Char.ofNat (c.toNat + 32) else c

/-- Model of Python `str.lower` on ASCII strings. -/
def pyLower (s : String) : String := ⟨s.data.map lowerChar⟩

/-- The decimal digit character of `d` (for `d ≤ 9`). -/
def digitChar (d : ℕ) : Char := Char.ofNat (48 + d)

/-- Big-endian decimal digit characters of `n`; the first argument is
structural-recursion fuel (any fuel `> n` gives the true digit list). -/
def natStrAux : ℕ → ℕ → List Char
  | 0, _ => []
  | fuel + 1, n =>
    if n < 10 then [digitChar n]
    else natStrAux fuel (n / 10) ++ [digitChar (n % 10)]

/-- Big-endian decimal digit characters of `n`. -/
def digitsOf (n : ℕ) : List Char := natStrAux (n + 1) n

/-- Model of Python `str` on a nonnegative integer. -/
def natStr (n : ℕ) : String := ⟨digitsOf n⟩

/-- Model of Python `str` on an integer. -/
def intStr : Int → String
  | .ofNat n => natStr n
  | .negSucc n => ⟨'-' :: digitsOf (n + 1)⟩

/-- Numeric value of a decimal digit character. -/
def digitVal (c : Char) : ℕ := c.toNat - 48

/-- Fold a big-endian decimal digit-character list onto an accumulator. -/
def parseDigitsAux : List Char → ℕ → ℕ
  | [], acc => acc
  | c :: cs, acc => parseDigitsAux cs (acc * 10 + digitVal c)

/-- Hex digit recognizer (both cases), as accepted by Python `int(s, 16)`. -/
def isHexChar (c : Char) : Bool :=
  c.isDigit || (decide ('a' ≤ c) && decide (c ≤ 'f')) || (decide ('A' ≤ c) && decide (c ≤ 'F'))

/-- Numeric value of a hex digit character. -/
def hexVal (c : Char) : ℕ :=
  if c.isDigit then c.toNat - 48
  else if decide ('a' ≤ c) && decide (c ≤ 'f') then c.toNat - 87
  else c.toNat - 55

/-- Fold a big-endian hex digit-character list onto an accumulator. -/
def parseHexAux : List Char → ℕ → ℕ
  | [], acc => acc
  | c :: cs, acc => parseHexAux cs (acc * 16 + hexVal c)

/-- Split a leading `+`/`-` sign from a character list. -/
def splitSign : List Char → Bool × List Char
  | [] => (false, [])
  | c :: cs => if c = '-' then (true, cs) else if c = '+' then (false, cs) else (false, c :: cs)

/-- Model of Python `int(s)`: an optional sign followed by a nonempty
run of decimal digits. -/
def pyIntDec (s : String) : Option Int :=
  let (neg, ds) := splitSign s.data
  if !ds.isEmpty && ds.all Char.isDigit then
    let n : ℕ := parseDigitsAux ds 0
    some (if neg then -(n : Int) else (n : Int))
  else none

/-- Model of Python `int(s, 16)`: an optional sign, an optional `0x`/`0X`
prefix, then a nonempty run of hex digits. -/
def pyIntHex (s : String) : Option Int :=
  let (neg, r1) := splitSign s.data
  let r2 := match r1 with
    | '0' :: 'x' :: r => r
    | '0' :: 'X' :: r => r
    | _ => r1
  if !r2.isEmpty && r2.all isHexChar then
    let n : ℕ := parseHexAux r2 0
    some (if neg then -(n : Int) else (n : Int))
  else none

/-! ## Python `decimal.Decimal` (finite values) -/

/-- A finite Python `Decimal`: sign, coefficient and exponent; the
value is `(-1)^neg * coeff * 10^exp`. -/
structure Dec where
  neg : Bool
  coeff : ℕ
  exp : Int
deriving DecidableEq

/-- Model of the `Decimal(s)` constructor on finite numeric strings:
`sign? (digits [. digits?] | . digits) ([eE] sign? digits)?`. -/
def pyDecimalParse (s : String) : Option Dec :=
  let (neg, r0) := splitSign s.data
  let ip := r0.takeWhile Char.isDigit
  let r1 := r0.dropWhile Char.isDigit
  let (fp, r2) := match r1 with
    | '.' :: r => (r.takeWhile Char.isDigit, r.dropWhile Char.isDigit)
    | _ => ([], r1)
  if ip.isEmpty && fp.isEmpty then none
  else
    let coeff : ℕ := parseDigitsAux (ip ++ fp) 0
    match r2 with
    | [] => some ⟨neg, coeff, -(fp.length : Int)⟩
    | e :: r3 =>
      if e == 'e' || e == 'E' then
        let (eneg, r4) := splitSign r3
        if !r4.isEmpty && r4.all Char.isDigit then
          let ev : ℕ := parseDigitsAux r4 0
          some ⟨neg, coeff, (if eneg then -(ev : Int) else (ev : Int)) - fp.length⟩
        else none
      else none

/-- `Decimal(s)` succeeds on `s` (within the finite fragment modelled). -/
def pyDecimalOk (s : String) : Bool := (pyDecimalParse s).isSome

/-- Strip the factor `10^k` from `n`, returning `(m, k)` with
`n = m * 10^k` and `10 ∤ m` (for `n ≠ 0`); fuel-based. -/
def stripZerosAux : ℕ → ℕ → ℕ × ℕ
  | 0, n => (n, 0)
  | fuel + 1, n =>
    if n ≠ 0 ∧ n % 10 = 0 then
      let p := stripZerosAux fuel (n / 10)
      (p.1, p.2 + 1)
    else (n, 0)

/-- Strip all trailing zero factors of ten from `n`. -/
def stripZeros (n : ℕ) : ℕ × ℕ := stripZerosAux n n

/-- Round `m / p` to an integer, ties to even (`decimal`'s default
`ROUND_HALF_EVEN` context rounding). -/
def roundHalfEven (m p : ℕ) : ℕ :=
  let q := m / p
  let r := m % p
  if 2 * r > p then q + 1
  else if 2 * r < p then q
  else if q % 2 = 0 then q else q + 1

/-- The default `decimal` context precision (significant digits). -/
def DECIMAL_PREC : ℕ := 28

/-- Model of `(x / Decimal(10) ** d).normalize()` for a finite `x`:
the exact quotient when it fits in 28 significant digits, otherwise the
half-even rounding to 28 significant digits, in canonical (minimal
coefficient) representation. -/
def divPow10Normalized (x : Dec) (d : Int) : Dec :=
  if x.coeff = 0 then ⟨x.neg, 0, 0⟩
  else
    let p := stripZeros x.coeff
    let m := p.1
    let k := p.2
    let L := (digitsOf m).length
    if L ≤ DECIMAL_PREC then ⟨x.neg, m, x.exp + k - d⟩
    else
      let q := stripZeros (roundHalfEven m (10 ^ (L - DECIMAL_PREC)))
      ⟨x.neg, q.1, x.exp + k + (L - DECIMAL_PREC : ℕ) + q.2 - d⟩

/-- Model of Python `str` on a finite `Decimal`: plain notation when the
exponent is nonpositive and the adjusted exponent is at least `-6`,
scientific notation (`dE±a`) otherwise. -/
def decStr (x : Dec) : String :=
  let ds := digitsOf x.coeff
  let adjusted : Int := x.exp + ds.length - 1
  let body : List Char :=
    if x.exp ≤ 0 ∧ -6 ≤ adjusted then
      if x.exp = 0 then ds
      else
        let e := (-x.exp).toNat
        if e < ds.length then ds.take (ds.length - e) ++ '.' :: ds.drop (ds.length - e)
        else '0' :: '.' :: (List.replicate (e - ds.length) '0' ++ ds)
    else
      (match ds with
       | [] => []
       | c :: rest => c :: if rest.isEmpty then [] else '.' :: rest)
        ++ 'E' :: (if 0 ≤ adjusted then '+' else '-') :: digitsOf adjusted.natAbs
  ⟨(if x.neg then ['-'] else []) ++ body⟩

/-! ## The Python exceptions the monitor lets escape -/

/-- Uncaught Python exceptions reachable from the polling loop. -/
inductive PyErr where
  | valueError
  | keyError
  | invalidOperation
deriving DecidableEq

instance {ε α : Type} [DecidableEq ε] [DecidableEq α] : DecidableEq (Except ε α) := fun x y =>
  match x, y with
  | .ok a, .ok b =>
    if h : a = b then .isTrue (h ▸ rfl) else .isFalse (by simp [h])
  | .error a, .error b =>
    if h : a = b then .isTrue (h ▸ rfl) else .isFalse (by simp [h])
  | .ok _, .error _ => .isFalse (by simp)
  | .error _, .ok _ => .isFalse (by simp)

/-- `format_token_amount(raw_value, token_decimal)` from src/monitor.py:
`int(token_decimal)` with 18 as the fallback, raw string returned
unchanged for zero decimals, otherwise
`str((Decimal(raw_value) / Decimal(10) ** decimals).normalize())`; a raw
value `Decimal` cannot parse raises `InvalidOperation` (uncaught). -/
def format_token_amount (raw_value token_decimal : String) : Except PyErr String :=
  let decimals : Int := (pyIntDec token_decimal).getD 18
  if decimals = 0 then .ok raw_value
  else
    match pyDecimalParse raw_value with
    | none => .error .invalidOperation
    | some x => .ok (decStr (divPow10Normalized x decimals))

example : format_token_amount "1000000000000000000" "18" = .ok "1" := by decide
example : format_token_amount "1500000000000000000" "18" = .ok "1.5" := by decide
example : format_token_amount "5" "0" = .ok "5" := by decide
example : format_token_amount "100" "1" = .ok "1E+1" := by decide
example : format_token_amount "1" "7" = .ok "1E-7" := by decide
example : format_token_amount "0" "18" = .ok "0" := by decide
example : format_token_amount "123" "junk" = .ok "1.23E-16" := by decide
example : format_token_amount "250" "2" = .ok "2.5" := by decide

end Monitor

namespace Monitor

example : format_token_amount "12345678901234567890123456789012" "18" =
    .ok "12345678901234.56789012345679" := by decide
example : format_token_amount "99999999999999999999999999995" "0x" = .ok "1E+11" := by decide
example : format_token_amount "1.5" "3" = .ok "0.0015" := by decide
example : format_token_amount "5." "1" = .ok "0.5" := by decide
example : format_token_amount ".5" "1" = .ok "0.05" := by decide
example : format_token_amount "2E3" "2" = .ok "2E+1" := by decide
example : format_token_amount "-450" "1" = .ok "-45" := by decide
example : format_token_amount "1" "6" = .ok "0.000001" := by decide
example : format_token_amount "abc" "18" = .error .invalidOperation := by decide
example : pyIntHex "0x1A" = some 26 := by decide
example : pyIntHex "ff" = some 255 := by decide
example : pyIntHex "-0xF" = some (-15) := by decide
example : pyIntHex "0x" = none := by decide
example : pyIntDec "007" = some 7 := by decide
example : pyIntDec "" = none := by decide
example : pyIntDec "1.5" = none := by decide

end Monitor

namespace Monitor

/-! ## Data model: API records and responses -/

/-- One transfer record of an Etherscan account query, with the fields
the monitor reads; `none` models an absent JSON key. -/
structure Tx where
  toAddr : Option String  -- the JSON key "to" ("to" is reserved in Lean)
  hash : Option String
  isError : Option String
  value : Option String
  tokenDecimal : Option String
deriving DecidableEq

/-- One raw event log of an Etherscan `getLogs` query, with the fields
the monitor reads; `none` models an absent JSON key. -/
structure LogEntry where
  transactionHash : Option String
  blockNumber : Option String
  data : Option String
deriving DecidableEq

/-- Outcome of one HTTP query, as seen after the `try`/`except` blocks
of the fetch helpers: `failure` is any transport error, non-2xx status
or unparsable body (all caught and mapped to `None` in the source);
`ok` is a parsed JSON body with its `status`, `message` and `result`
fields (an absent `status`/`message` behaves exactly like a string
other than `"1"` and like `""` here, so both are plain strings). -/
inductive ApiResponse (α : Type) where
  | failure : ApiResponse α
  | ok (status : String) (message : String) (result : List α) : ApiResponse α
deriving DecidableEq

/-- Nonempty-pattern substring test, as Python's `in` on strings. -/
def containsSub (pat : List Char) : List Char → Bool
  | [] => pat.isEmpty
  | l@(_ :: rest) => pat.isPrefixOf l || containsSub pat rest

/-- `fetch_transfers` from src/monitor.py, after the HTTP layer: a
failure maps to `none`; a body whose status is not `"1"` maps to the
empty list when its message contains `"No transactions found"` and to
`none` otherwise; a success returns the result list. -/
def fetch_transfers : ApiResponse Tx → Option (List Tx)
  | .failure => none
  | .ok status message result =>
    if status ≠ "1" then
      if containsSub "No transactions found".data message.data then some [] else none
    else some result

/-- `fetch_aave_supply_logs` from src/monitor.py, after the HTTP layer;
identical tri-state shape with the two empty-result messages. -/
def fetch_aave_supply_logs : ApiResponse LogEntry → Option (List LogEntry)
  | .failure => none
  | .ok status message result =>
    if status ≠ "1" then
      if containsSub "No records found".data message.data ||
          containsSub "No transactions found".data message.data then some [] else none
    else some result

/-! ## filter_incoming -/

/-- Recipient test of `filter_incoming`:
`tx.get("to", "").lower() == address.lower()`. -/
def recipB (addr_lower : String) (tx : Tx) : Bool :=
  pyLower (tx.toAddr.getD "") == addr_lower

/-- The extra ETH-category predicate of `filter_incoming`:
`tx.get("isError") != "1" and int(tx.get("value", "0")) > 0`; the
`int` call raises `ValueError` on a malformed value (short-circuited
when `isError == "1"`). -/
def ethKeep (tx : Tx) : Except PyErr Bool :=
  if tx.isError = some "1" then .ok false
  else
    match pyIntDec (tx.value.getD "0") with
    | none => .error .valueError
    | some v => .ok (decide (0 < v))

/-- A Python list comprehension with a possibly-raising predicate,
evaluated left to right. -/
def filterExc (p : Tx → Except PyErr Bool) : List Tx → Except PyErr (List Tx)
  | [] => .ok []
  | tx :: rest => do
    let b ← p tx
    let r ← filterExc p rest
    pure (if b then tx :: r else r)

/-- `filter_incoming(transfers, address, transfer_type)` from
src/monitor.py. -/
def filter_incoming (transfers : List Tx) (address : String) (transfer_type : String) :
    Except PyErr (List Tx) :=
  let addr_lower := pyLower address
  let incoming := transfers.filter (recipB addr_lower)
  if transfer_type = "ETH" then filterExc ethKeep incoming
  else .ok incoming

/-! ## print_transfer and decode_supply_event -/

/-- The raising behavior of `print_transfer(tx, transfer_type)`: the
printed text is not observable here, but the ETH and TOKEN branches
format the raw value with `format_token_amount`, whose `Decimal`
constructor raises on a malformed value string. -/
def print_transfer (tx : Tx) (transfer_type : String) : Except PyErr Unit := do
  if transfer_type = "ETH" then
    let _ ← format_token_amount (tx.value.getD "0") "18"
    pure ()
  else if transfer_type = "TOKEN" then
    let _ ← format_token_amount (tx.value.getD "0") (tx.tokenDecimal.getD "18")
    pure ()
  else pure ()

/-- A decoded Aave V3 Supply event, the dict built by
`decode_supply_event`. -/
structure SupplyEvent where
  tx_hash : String
  block_number : Int
  sender : Option String
  user : String
  amount_display : String
deriving DecidableEq

/-- Python slicing `s[a:b]` for `0 ≤ a ≤ b` (clipping at the ends). -/
def pySlice (s : String) (a b : ℕ) : String := ⟨(s.data.drop a).take (b - a)⟩

/-- `decode_supply_event(log, api_key)` from src/monitor.py; the
`get_tx_sender` secondary lookup is an oracle (it catches every
exception and returns `None` on any failure). `int(..., 16)` on the
amount slice or the block number raises `ValueError` (uncaught). -/
def decode_supply_event (sender_oracle : String → Option String) (log : LogEntry) :
    Except PyErr SupplyEvent :=
  let data := log.data.getD "0x"
  let tx_hash := log.transactionHash.getD ""
  let user := if 66 ≤ data.length then "0x" ++ pySlice data 26 66 else "unknown"
  (if 130 ≤ data.length then
    (match pyIntHex (pySlice data 66 130) with
      | none => (Except.error PyErr.valueError : Except PyErr Int)
      | some v => .ok v)
  else .ok 0) >>= fun amount_wei =>
    format_token_amount (intStr amount_wei) "18" >>= fun amount_display =>
      let sender := if tx_hash ≠ "" then sender_oracle tx_hash else none
      (match pyIntHex (log.blockNumber.getD "0x0") with
        | none => (Except.error PyErr.valueError : Except PyErr Int)
        | some v => .ok v) >>= fun block_number =>
        .ok ⟨tx_hash, block_number, sender, user, amount_display⟩

/-! ## The polling round of `monitor` -/

/-- `MAX_SEEN_HASHES` from src/monitor.py. -/
def MAX_SEEN_HASHES : ℕ := 1000

/-- `tx["hash"]` (raises `KeyError` when the key is absent). -/
def getHash (tx : Tx) : Except PyErr String :=
  match tx.hash with
  | none => .error .keyError
  | some h => .ok h

/-- The seeding-phase loop `for tx in incoming: seen.add(tx["hash"])`. -/
def seedAdd (seen : Finset String) : List Tx → Except PyErr (Finset String)
  | [] => .ok seen
  | tx :: rest => do
    let h ← getHash tx
    seedAdd (insert h seen) rest

/-- The steady-phase diffing loop: collect the transfers whose hash is
not yet seen (in query order) while adding each new hash to the set. -/
def steadyDiff (seen : Finset String) : List Tx → Except PyErr (Finset String × List Tx)
  | [] => .ok (seen, [])
  | tx :: rest => do
    let h ← getHash tx
    if h ∈ seen then steadyDiff seen rest
    else (steadyDiff (insert h seen) rest).map fun p => (p.1, tx :: p.2)

/-- The reset comprehension `{tx["hash"] for tx in incoming}`. -/
def hashSetOf : List Tx → Except PyErr (Finset String)
  | [] => .ok ∅
  | tx :: rest => do
    let h ← getHash tx
    (hashSetOf rest).map (insert h)

/-- One transfer-channel round of the `monitor` loop (lines 299-322 of
src/monitor.py): fetch, filter, seed or diff-and-alert, then the
bounded-set reset; a fetch failure skips the channel (`continue`).
Returns the new seen set and the alerted records, in alert order
(oldest first: `reversed(new_transfers)`). -/
def transferRound (first_run : Bool) (address transfer_type : String)
    (seen : Finset String) (resp : ApiResponse Tx) :
    Except PyErr (Finset String × List Tx) :=
  match fetch_transfers resp with
  | none => .ok (seen, [])
  | some transfers => do
    let incoming ← filter_incoming transfers address transfer_type
    let (seen1, alerts) ←
      if first_run then do
        let s ← seedAdd seen incoming
        pure (s, ([] : List Tx))
      else do
        let (s, newT) ← steadyDiff seen incoming
        let alerts := newT.reverse
        alerts.forM (fun tx => print_transfer tx transfer_type)
        pure (s, alerts)
    if MAX_SEEN_HASHES < seen1.card then do
      let ids ← hashSetOf incoming
      pure (ids, alerts)
    else pure (seen1, alerts)

/-- `log.get("transactionHash", "")`. -/
def logHashD (log : LogEntry) : String := log.transactionHash.getD ""

/-- The Aave seeding loop: add every log's transaction hash (defaulting
to `""`) to the seen set. -/
def aaveSeed (seen : Finset String) (logs : List LogEntry) : Finset String :=
  logs.foldl (fun s lg => insert (logHashD lg) s) seen

/-- The Aave steady-phase diffing loop: keep the logs whose hash is
nonempty and unseen, adding each kept hash. -/
def aaveDiff (seen : Finset String) : List LogEntry → Finset String × List LogEntry
  | [] => (seen, [])
  | lg :: rest =>
    let h := logHashD lg
    if h ≠ "" ∧ h ∉ seen then
      let p := aaveDiff (insert h seen) rest
      (p.1, lg :: p.2)
    else aaveDiff seen rest

/-- The cursor-advance loop `for log in logs: ... if block_num >
aave_from_block: aave_from_block = block_num`, with the `ValueError`
of `int(log.get("blockNumber", "0x0"), 16)`. -/
def advanceCursor (cursor : Int) : List LogEntry → Except PyErr Int
  | [] => .ok cursor
  | lg :: rest =>
    match pyIntHex (lg.blockNumber.getD "0x0") with
    | none => .error .valueError
    | some bn => advanceCursor (if cursor < bn then bn else cursor) rest

/-- The Aave reset comprehension
`{log.get("transactionHash", "") for log in logs}`. -/
def aaveHashSet (logs : List LogEntry) : Finset String :=
  (logs.map logHashD).toFinset

/-- One Aave-channel round of the `monitor` loop (lines 325-352 of
src/monitor.py): fetch, seed or diff-decode-alert, cursor advance,
bounded-set reset; a fetch failure leaves every piece of state
unchanged. Returns the new seen set, the new cursor and the decoded
alerted events in alert order (query order). -/
def aaveRound (sender_oracle : String → Option String) (first_run : Bool)
    (seen : Finset String) (cursor : Int) (resp : ApiResponse LogEntry) :
    Except PyErr (Finset String × Int × List SupplyEvent) :=
  match fetch_aave_supply_logs resp with
  | none => .ok (seen, cursor, [])
  | some logs => do
    let (seen1, events) ←
      if first_run then pure (aaveSeed seen logs, ([] : List SupplyEvent))
      else do
        let p := aaveDiff seen logs
        let evs ← p.2.mapM (decode_supply_event sender_oracle)
        pure (p.1, evs)
    let cursor1 ← advanceCursor cursor logs
    let seen2 := if MAX_SEEN_HASHES < seen1.card then aaveHashSet logs else seen1
    pure (seen2, cursor1, events)

/-- The mutable state of the `monitor` loop: one seen set per transfer
category, the Aave seen set, the block cursor and the run phase
(`first_run = true` is the seeding phase). -/
structure MonitorState where
  seenETH : Finset String
  seenTOKEN : Finset String
  seenNFT : Finset String
  aave_seen : Finset String
  aave_from_block : Int
  first_run : Bool
deriving DecidableEq

/-- The queries answered in one round of the loop: one response per
transfer category (in the `TRANSFER_TYPES` iteration order ETH, TOKEN,
NFT) plus the `getLogs` response. -/
structure RoundInput where
  eth : ApiResponse Tx
  token : ApiResponse Tx
  nft : ApiResponse Tx
  logs : ApiResponse LogEntry
deriving DecidableEq

/-- One emitted alert: a transfer alert of a category, or an Aave
supply-event alert. -/
inductive Alert where
  | transfer (transfer_type : String) (tx : Tx)
  | aave (e : SupplyEvent)
deriving DecidableEq

/-- The state of `monitor` at loop entry: empty seen sets, seeding
phase, and the given initial block cursor (`0`, or the current block
minus the lookback when that lookup succeeds). -/
def mkInitState (cursor : Int) : MonitorState := ⟨∅, ∅, ∅, ∅, cursor, true⟩

/-- One full iteration of the `while True` loop of `monitor`: the three
transfer channels in order, then the Aave channel when enabled, then
`first_run = False`. Returns the new state and every alert of the
round, in emission order. -/
def stepMonitor (address : String) (watch_aave : Bool)
    (sender_oracle : String → Option String) (s : MonitorState) (inp : RoundInput) :
    Except PyErr (MonitorState × List Alert) := do
  let (sE, aE) ← transferRound s.first_run address "ETH" s.seenETH inp.eth
  let (sT, aT) ← transferRound s.first_run address "TOKEN" s.seenTOKEN inp.token
  let (sN, aN) ← transferRound s.first_run address "NFT" s.seenNFT inp.nft
  let (sA, rest) ←
    if watch_aave then aaveRound sender_oracle s.first_run s.aave_seen s.aave_from_block inp.logs
    else pure (s.aave_seen, s.aave_from_block, ([] : List SupplyEvent))
  pure (⟨sE, sT, sN, sA, rest.1, false⟩,
    aE.map (Alert.transfer "ETH") ++ aT.map (Alert.transfer "TOKEN") ++
      aN.map (Alert.transfer "NFT") ++ rest.2.map Alert.aave)

/-- Run the loop over a list of round inputs, collecting the per-round
alert lists; an uncaught exception aborts the whole run. -/
def runRounds (address : String) (watch_aave : Bool)
    (sender_oracle : String → Option String) :
    MonitorState → List RoundInput → Except PyErr (MonitorState × List (List Alert))
  | s, [] => .ok (s, [])
  | s, inp :: rest => do
    let (s1, a) ← stepMonitor address watch_aave sender_oracle s inp
    let (s2, later) ← runRounds address watch_aave sender_oracle s1 rest
    pure (s2, a :: later)

/-- The post-round states of a run (one entry per completed round; a
round that raises ends the list). -/
def roundStates (address : String) (watch_aave : Bool)
    (sender_oracle : String → Option String) :
    MonitorState → List RoundInput → List MonitorState
  | _, [] => []
  | s, inp :: rest =>
    match stepMonitor address watch_aave sender_oracle s inp with
    | .error _ => []
    | .ok (s1, _) => s1 :: roundStates address watch_aave sender_oracle s1 rest

end Monitor

namespace Monitor

/-- A transfer record with only a recipient, hash and value. -/
def mkTx (toA h v : String) : Tx :=
  { toAddr := some toA, hash := some h, isError := none, value := some v, tokenDecimal := none }

/-- A successful transfer response. -/
def okTxs (l : List Tx) : ApiResponse Tx := .ok "1" "OK" l

/-- An empty-but-successful transfer response. -/
def emptyTxs : ApiResponse Tx := .ok "0" "No transactions found" []

/-- An empty-but-successful logs response. -/
def emptyLogs : ApiResponse LogEntry := .ok "0" "No records found" []

/-- A sender oracle whose every lookup fails. -/
def noSender : String → Option String := fun _ => none

example : fetch_transfers emptyTxs = some [] := by decide
example : fetch_transfers (.ok "0" "NOTOK: rate limit" []) = none := by decide
example : fetch_transfers (.failure) = none := by decide
example : fetch_aave_supply_logs emptyLogs = some [] := by decide

example :
    (runRounds "0xa" false noSender (mkInitState 0)
        [⟨okTxs [mkTx "0xa" "B" "1", mkTx "0xa" "A" "1"], emptyTxs, emptyTxs, emptyLogs⟩,
         ⟨okTxs [mkTx "0xa" "C" "1", mkTx "0xa" "B" "1", mkTx "0xa" "A" "1"],
           emptyTxs, emptyTxs, emptyLogs⟩]).map
      (fun p => (p.2, decide (p.1.seenETH = {"C", "B", "A"}))) =
    .ok ([[], [Alert.transfer "ETH" (mkTx "0xa" "C" "1")]], true) := by decide

end Monitor

namespace Monitor

/-! ## Digit-string lemmas -/

lemma natStrAux_congr : ∀ (n : ℕ) {f g : ℕ}, n < f → n < g →
    natStrAux f n = natStrAux g n := by
  intro n
  induction n using Nat.strong_induction_on with
  | _ n ih =>
    intro f g hf hg
    match f, g with
    | f + 1, g + 1 =>
      simp only [natStrAux]
      by_cases h : n < 10
      · simp [h]
      · have h10 : 10 ≤ n := Nat.le_of_not_lt h
        have hd : n / 10 < n := Nat.div_lt_self (by omega) (by omega)
        simp only [if_neg h]
        have hrec := ih (n / 10) hd (show n / 10 < f by omega) (show n / 10 < g by omega)
        rw [hrec]

lemma digitsOf_lt10 {n : ℕ} (h : n < 10) : digitsOf n = [digitChar n] := by
  simp [digitsOf, natStrAux, h]

lemma digitsOf_ge10 {n : ℕ} (h : 10 ≤ n) :
    digitsOf n = digitsOf (n / 10) ++ [digitChar (n % 10)] := by
  have hd : n / 10 < n := Nat.div_lt_self (by omega) (by omega)
  simp only [digitsOf, natStrAux, Nat.lt_irrefl, if_neg (Nat.not_lt.mpr h)]
  rw [natStrAux_congr (n / 10) (show n / 10 < n by omega) (show n / 10 < n / 10 + 1 by omega)]
  rfl

lemma digitsOf_ne_nil (n : ℕ) : digitsOf n ≠ [] := by
  by_cases h : n < 10
  · simp [digitsOf_lt10 h]
  · simp [digitsOf_ge10 (Nat.le_of_not_lt h)]

lemma digitChar_isDigit {d : ℕ} (h : d < 10) : (digitChar d).isDigit = true := by
  interval_cases d <;> decide

lemma digitVal_digitChar {d : ℕ} (h : d < 10) : digitVal (digitChar d) = d := by
  interval_cases d <;> decide

lemma digitChar_ne_zeroChar {d : ℕ} (h : d < 10) (h0 : d ≠ 0) : digitChar d ≠ '0' := by
  interval_cases d <;> simp_all <;> decide

lemma digitsOf_all_digits : ∀ (n : ℕ), ∀ c ∈ digitsOf n, c.isDigit = true := by
  intro n
  induction n using Nat.strong_induction_on with
  | _ n ih =>
    by_cases h : n < 10
    · rw [digitsOf_lt10 h]
      intro c hc
      simp at hc
      subst hc
      exact digitChar_isDigit h
    · have h10 : 10 ≤ n := Nat.le_of_not_lt h
      rw [digitsOf_ge10 h10]
      intro c hc
      rcases List.mem_append.mp hc with h1 | h2
      · exact ih (n / 10) (Nat.div_lt_self (by omega) (by omega)) c h1
      · simp at h2
        subst h2
        exact digitChar_isDigit (Nat.mod_lt n (by omega))

lemma digitsOf_getLast? (n : ℕ) : (digitsOf n).getLast? = some (digitChar (n % 10)) := by
  by_cases h : n < 10
  · rw [digitsOf_lt10 h, Nat.mod_eq_of_lt h]
    rfl
  · rw [digitsOf_ge10 (Nat.le_of_not_lt h), List.getLast?_concat]

lemma parseDigitsAux_append (xs ys : List Char) (acc : ℕ) :
    parseDigitsAux (xs ++ ys) acc = parseDigitsAux ys (parseDigitsAux xs acc) := by
  induction xs generalizing acc with
  | nil => rfl
  | cons c cs ih => simp [parseDigitsAux, ih]

lemma parseDigitsAux_digitsOf : ∀ (n acc : ℕ),
    parseDigitsAux (digitsOf n) acc = acc * 10 ^ (digitsOf n).length + n := by
  intro n
  induction n using Nat.strong_induction_on with
  | _ n ih =>
    intro acc
    by_cases h : n < 10
    · rw [digitsOf_lt10 h]
      simp [parseDigitsAux, digitVal_digitChar h]
    · have h10 : 10 ≤ n := Nat.le_of_not_lt h
      have hd : n / 10 < n := Nat.div_lt_self (by omega) (by omega)
      rw [digitsOf_ge10 h10, parseDigitsAux_append, ih (n / 10) hd acc]
      have hm : n % 10 < 10 := Nat.mod_lt n (by omega)
      simp only [parseDigitsAux, digitVal_digitChar hm, List.length_append,
        List.length_singleton]
      calc (acc * 10 ^ (digitsOf (n / 10)).length + n / 10) * 10 + n % 10
          = acc * 10 ^ ((digitsOf (n / 10)).length + 1) + (10 * (n / 10) + n % 10) := by ring
        _ = acc * 10 ^ ((digitsOf (n / 10)).length + 1) + n := by rw [Nat.div_add_mod]

lemma parse_digitsOf (n : ℕ) : parseDigitsAux (digitsOf n) 0 = n := by
  simpa using parseDigitsAux_digitsOf n 0

lemma digitsOf_mul_ten {n : ℕ} (h : n ≠ 0) :
    digitsOf (n * 10) = digitsOf n ++ [digitChar 0] := by
  have h10 : 10 ≤ n * 10 := by omega
  rw [digitsOf_ge10 h10, Nat.mul_div_cancel n (by omega), Nat.mul_mod_left]

lemma digitsOf_mul_pow10 {m : ℕ} (hm : m ≠ 0) :
    ∀ k, digitsOf (m * 10 ^ k) = digitsOf m ++ List.replicate k '0' := by
  intro k
  induction k with
  | zero => simp
  | succ k ih =>
    have hne : m * 10 ^ k ≠ 0 := by positivity
    have : m * 10 ^ (k + 1) = m * 10 ^ k * 10 := by ring
    rw [this, digitsOf_mul_ten hne, ih, List.replicate_succ' k '0', List.append_assoc]
    rfl

end Monitor

namespace Monitor

/-! ## Parser lemmas -/

lemma ne_sign_of_isDigit {c : Char} (h : c.isDigit = true) : c ≠ '-' ∧ c ≠ '+' := by
  constructor <;> intro he <;> subst he <;> exact absurd h (by decide)

lemma splitSign_of_digits {l : List Char} (hne : l ≠ [])
    (hdig : ∀ c ∈ l, c.isDigit = true) : splitSign l = (false, l) := by
  match l with
  | [] => exact absurd rfl hne
  | c :: cs =>
    have hd := ne_sign_of_isDigit (hdig c (by simp))
    simp [splitSign, hd.1, hd.2]

lemma pyDecimalParse_data_digits {l ds : List Char} {b : Bool}
    (hsplit : splitSign l = (b, ds)) (hne : ds ≠ [])
    (hdig : ∀ c ∈ ds, c.isDigit = true) :
    pyDecimalParse ⟨l⟩ = some ⟨b, parseDigitsAux ds 0, 0⟩ := by
  unfold pyDecimalParse
  simp only [String.data]
  rw [hsplit]
  simp only [List.takeWhile_eq_self_iff.mpr hdig, List.dropWhile_eq_nil_iff.mpr hdig]
  simp [hne, List.isEmpty_iff]

lemma pyDecimalParse_digitsOf (b : Bool) (n : ℕ) :
    pyDecimalParse ⟨(if b then ['-'] else []) ++ digitsOf n⟩ = some ⟨b, n, 0⟩ := by
  have hdig := digitsOf_all_digits n
  have hne := digitsOf_ne_nil n
  have hsplit : splitSign ((if b then ['-'] else []) ++ digitsOf n) = (b, digitsOf n) := by
    cases b
    · simpa using splitSign_of_digits hne hdig
    · simp [splitSign]
  rw [pyDecimalParse_data_digits hsplit hne hdig, parse_digitsOf]

lemma pyDecimalParse_natStr (n : ℕ) : pyDecimalParse (natStr n) = some ⟨false, n, 0⟩ := by
  simpa using pyDecimalParse_digitsOf false n

lemma pyDecimalOk_intStr (v : Int) : pyDecimalOk (intStr v) = true := by
  cases v with
  | ofNat n => simp [pyDecimalOk, intStr, pyDecimalParse_natStr]
  | negSucc n =>
    have h := pyDecimalParse_digitsOf true (n + 1)
    have h2 : pyDecimalParse ⟨'-' :: digitsOf (n + 1)⟩ = some ⟨true, n + 1, 0⟩ := by
      simpa using h
    simp [pyDecimalOk, intStr, h2]

lemma pyDecimalOk_of_pyIntDec {s : String} {v : Int} (h : pyIntDec s = some v) :
    pyDecimalOk s = true := by
  unfold pyIntDec at h
  rcases hsplit : splitSign s.data with ⟨b, ds⟩
  rw [hsplit] at h
  simp only at h
  by_cases hc : (!ds.isEmpty && ds.all Char.isDigit) = true
  · have hc2 := hc
    rw [Bool.and_eq_true] at hc2
    obtain ⟨h1, h2⟩ := hc2
    have hne : ds ≠ [] := by simpa [List.isEmpty_iff] using h1
    have hdig : ∀ c ∈ ds, c.isDigit = true := fun c hcm => List.all_eq_true.mp h2 c hcm
    have : pyDecimalParse ⟨s.data⟩ = some ⟨b, parseDigitsAux ds 0, 0⟩ :=
      pyDecimalParse_data_digits hsplit hne hdig
    simp only [pyDecimalOk]
    have hs : (⟨s.data⟩ : String) = s := rfl
    rw [hs] at this
    simp [this]
  · rw [if_neg hc] at h
    exact absurd h (by simp)

/-! ## stripZeros lemmas -/

lemma stripZerosAux_spec : ∀ (fuel n : ℕ), n ≤ fuel → n ≠ 0 →
    n = (stripZerosAux fuel n).1 * 10 ^ (stripZerosAux fuel n).2 ∧
      (stripZerosAux fuel n).1 % 10 ≠ 0 ∧ (stripZerosAux fuel n).1 ≠ 0 := by
  intro fuel
  induction fuel with
  | zero => intro n hn h0; omega
  | succ fuel ih =>
    intro n hn h0
    by_cases hc : n ≠ 0 ∧ n % 10 = 0
    · have h10 : 10 ≤ n := by omega
      have hdn : n / 10 ≠ 0 := by omega
      have hle : n / 10 ≤ fuel := by omega
      obtain ⟨h1, h2, h3⟩ := ih (n / 10) hle hdn
      simp only [stripZerosAux, if_pos hc]
      refine ⟨?_, h2, h3⟩
      rw [pow_succ, ← Nat.mul_assoc, ← h1]
      omega
    · simp only [stripZerosAux, if_neg hc]
      exact ⟨by simp, by omega, h0⟩

lemma stripZeros_spec {n : ℕ} (h : n ≠ 0) :
    n = (stripZeros n).1 * 10 ^ (stripZeros n).2 ∧
      (stripZeros n).1 % 10 ≠ 0 ∧ (stripZeros n).1 ≠ 0 :=
  stripZerosAux_spec n n le_rfl h

end Monitor

namespace Monitor

/-! ## The spec-side canonical decimal rendering (claim C8) -/

/-- Strip trailing `'0'` characters from a character list. -/
def stripTrailingZeroChars (l : List Char) : List Char :=
  (l.reverse.dropWhile (fun c => c == '0')).reverse

/-- Modelled from the spec's words, for comparison with the code
(claim C8): the value `n / 10^d` "rendered with trailing zeros and
trailing decimal point stripped" as a plain decimal string — write `n`
in decimal, place the decimal point `d` digits from the right
(left-padding with zeros so an integer digit remains), strip trailing
fractional zeros, and strip the decimal point when no fractional digit
survives; a decimals count of 0 returns the digit string unchanged. -/
def specCanonical (n d : ℕ) : String :=
  if d = 0 then natStr n
  else
    let ds := digitsOf n
    let padded := List.replicate (d + 1 - ds.length) '0' ++ ds
    let ip := padded.take (padded.length - d)
    let fp := stripTrailingZeroChars (padded.drop (padded.length - d))
    ⟨if fp.isEmpty then ip else ip ++ '.' :: fp⟩

example : specCanonical 1500000000000000000 18 = "1.5" := by decide
example : specCanonical 1000000000000000000 18 = "1" := by decide
example : specCanonical 100 1 = "10" := by decide
example : specCanonical 0 18 = "0" := by decide
example : specCanonical 1 7 = "0.0000001" := by decide
example : specCanonical 5 0 = "5" := by decide
example : specCanonical 12345 2 = "123.45" := by decide

lemma dropWhile_zero_replicate (k : ℕ) :
    List.dropWhile (fun c => c == '0') (List.replicate k '0') = [] :=
  List.dropWhile_eq_nil_iff.mpr fun x hx => by
    rcases List.mem_replicate.mp hx with ⟨_, rfl⟩; rfl

lemma stripTrailingZeroChars_append_replicate (xs : List Char) (k : ℕ) :
    stripTrailingZeroChars (xs ++ List.replicate k '0') = stripTrailingZeroChars xs := by
  unfold stripTrailingZeroChars
  rw [List.reverse_append, List.reverse_replicate, List.dropWhile_append,
    dropWhile_zero_replicate]
  simp

lemma stripTrailingZeroChars_replicate (k : ℕ) :
    stripTrailingZeroChars (List.replicate k '0') = [] := by
  unfold stripTrailingZeroChars
  rw [List.reverse_replicate, dropWhile_zero_replicate]
  rfl

lemma stripTrailingZeroChars_of_getLast {xs : List Char} {c : Char}
    (h : xs.getLast? = some c) (hc : (c == '0') = false) :
    stripTrailingZeroChars xs = xs := by
  unfold stripTrailingZeroChars
  have hrev : xs.reverse.head? = some c := by rw [List.head?_reverse, h]
  match hx : xs.reverse with
  | [] => rw [hx] at hrev; exact absurd hrev (by simp)
  | a :: t =>
    rw [hx] at hrev
    have ha : a = c := by simpa using hrev
    subst ha
    rw [List.dropWhile_cons_of_neg (by simp [hc]), ← hx, List.reverse_reverse]

end Monitor

namespace Monitor

/-! ## decStr and specCanonical shape lemmas -/

lemma digitsOf_length_pos (n : ℕ) : 1 ≤ (digitsOf n).length := by
  cases hdm : digitsOf n with
  | nil => exact absurd hdm (digitsOf_ne_nil n)
  | cons a t => simp

lemma decStr_exp_zero (b : Bool) (m : ℕ) :
    decStr ⟨b, m, 0⟩ = ⟨(if b then ['-'] else []) ++ digitsOf m⟩ := by
  have hL := digitsOf_length_pos m
  have hcond : ((0 : Int) ≤ 0 ∧ (-6 : Int) ≤ 0 + ((digitsOf m).length : Int) - 1) := by
    constructor <;> omega
  unfold decStr
  simp only
  rw [if_pos hcond]
  simp

lemma decStr_negexp_lt {m E : ℕ} (hE1 : 1 ≤ E) (hE : E < (digitsOf m).length) :
    decStr ⟨false, m, -(E : Int)⟩ =
      ⟨(digitsOf m).take ((digitsOf m).length - E) ++
        '.' :: (digitsOf m).drop ((digitsOf m).length - E)⟩ := by
  have hcond : (-(E : Int) ≤ 0 ∧ (-6 : Int) ≤ -(E : Int) + ((digitsOf m).length : Int) - 1) := by
    constructor <;> omega
  have hne : ¬(-(E : Int) = 0) := by omega
  unfold decStr
  simp only
  rw [if_pos hcond, if_neg hne]
  simp only [neg_neg, Int.toNat_natCast]
  rw [if_pos hE]
  simp

lemma decStr_negexp_ge {m E : ℕ} (hE1 : 1 ≤ E) (hE : (digitsOf m).length ≤ E)
    (hadj : E ≤ (digitsOf m).length + 5) :
    decStr ⟨false, m, -(E : Int)⟩ =
      ⟨'0' :: '.' :: (List.replicate (E - (digitsOf m).length) '0' ++ digitsOf m)⟩ := by
  have hcond : (-(E : Int) ≤ 0 ∧ (-6 : Int) ≤ -(E : Int) + ((digitsOf m).length : Int) - 1) := by
    constructor <;> omega
  have hne : ¬(-(E : Int) = 0) := by omega
  unfold decStr
  simp only
  rw [if_pos hcond, if_neg hne]
  simp only [neg_neg, Int.toNat_natCast]
  rw [if_neg (by omega : ¬ E < (digitsOf m).length)]
  simp

lemma specCanonical_zero {D : ℕ} (hD : D ≠ 0) : specCanonical 0 D = "0" := by
  unfold specCanonical
  rw [if_neg hD]
  have hds : digitsOf 0 = ['0'] := by decide
  simp only [hds, List.length_singleton]
  have hpad : D + 1 - 1 = D := by omega
  rw [hpad]
  have hlen : (List.replicate D '0' ++ ['0']).length = D + 1 := by simp
  rw [hlen]
  have h1 : D + 1 - D = 1 := by omega
  rw [h1]
  have htake : (List.replicate D '0' ++ ['0']).take 1 = ['0'] := by
    rw [List.take_append_eq_append_take, List.take_replicate, List.length_replicate]
    have h3 : 1 ⊓ D = 1 := by omega
    have h4 : 1 - D = 0 := by omega
    rw [h3, h4]
    simp [List.replicate_one]
  have hdrop : (List.replicate D '0' ++ ['0']).drop 1 = List.replicate D '0' := by
    rw [List.drop_append_eq_append_drop, List.drop_replicate, List.length_replicate]
    have h2 : (1 : ℕ) - D = 0 := by omega
    rw [h2]
    simp only [List.drop_zero]
    have h5 : List.replicate (D - 1) '0' ++ ['0'] = List.replicate (D - 1 + 1) '0' :=
      (List.replicate_succ' (D - 1) '0').symm
    rw [h5]
    congr 1
    omega
  rw [htake, hdrop, stripTrailingZeroChars_replicate]
  rfl

end Monitor

namespace Monitor

lemma digitsOf_getLast_ne_zero {m : ℕ} (hm10 : m % 10 ≠ 0) :
    (digitsOf m).getLast? = some (digitChar (m % 10)) ∧ (digitChar (m % 10) == '0') = false := by
  refine ⟨digitsOf_getLast? m, ?_⟩
  have h10 : m % 10 < 10 := Nat.mod_lt _ (by omega)
  have hne := digitChar_ne_zeroChar h10 hm10
  simpa using hne

lemma specCanonical_case0 {m D : ℕ} (hm0 : m ≠ 0) (hD : D ≠ 0) :
    specCanonical (m * 10 ^ D) D = ⟨digitsOf m⟩ := by
  have hds : digitsOf (m * 10 ^ D) = digitsOf m ++ List.replicate D '0' :=
    digitsOf_mul_pow10 hm0 D
  have hL := digitsOf_length_pos m
  unfold specCanonical
  rw [if_neg hD]
  simp only [hds, List.length_append, List.length_replicate]
  have hpad : D + 1 - ((digitsOf m).length + D) = 0 := by omega
  rw [hpad]
  simp only [List.replicate_zero, List.nil_append]
  have hidx : 0 + ((digitsOf m).length + D) - D = (digitsOf m).length := by omega
  rw [hidx]
  have htake : (digitsOf m ++ List.replicate D '0').take (digitsOf m).length = digitsOf m := by
    rw [List.take_append_eq_append_take, List.take_length, Nat.sub_self, List.take_zero,
      List.append_nil]
  have hdrop : (digitsOf m ++ List.replicate D '0').drop (digitsOf m).length =
      List.replicate D '0' := by
    rw [List.drop_append_eq_append_drop, List.drop_length, Nat.sub_self, List.drop_zero,
      List.nil_append]
  rw [htake, hdrop, stripTrailingZeroChars_replicate]
  rfl

lemma specCanonical_case1 {m k D : ℕ} (hm0 : m ≠ 0) (hm10 : m % 10 ≠ 0) (hD : D ≠ 0)
    (hk : k < D) (he : D - k < (digitsOf m).length) :
    specCanonical (m * 10 ^ k) D =
      ⟨(digitsOf m).take ((digitsOf m).length - (D - k)) ++
        '.' :: (digitsOf m).drop ((digitsOf m).length - (D - k))⟩ := by
  have hds : digitsOf (m * 10 ^ k) = digitsOf m ++ List.replicate k '0' :=
    digitsOf_mul_pow10 hm0 k
  have hL := digitsOf_length_pos m
  unfold specCanonical
  rw [if_neg hD]
  simp only [hds, List.length_append, List.length_replicate]
  have hpad : D + 1 - ((digitsOf m).length + k) = 0 := by omega
  rw [hpad]
  simp only [List.replicate_zero, List.nil_append]
  have hidx : 0 + ((digitsOf m).length + k) - D = (digitsOf m).length - (D - k) := by omega
  rw [hidx]
  have htake : (digitsOf m ++ List.replicate k '0').take ((digitsOf m).length - (D - k)) =
      (digitsOf m).take ((digitsOf m).length - (D - k)) := by
    rw [List.take_append_eq_append_take]
    have h0 : (digitsOf m).length - (D - k) - (digitsOf m).length = 0 := by omega
    rw [h0, List.take_zero, List.append_nil]
  have hdrop : (digitsOf m ++ List.replicate k '0').drop ((digitsOf m).length - (D - k)) =
      (digitsOf m).drop ((digitsOf m).length - (D - k)) ++ List.replicate k '0' := by
    rw [List.drop_append_eq_append_drop]
    have h0 : (digitsOf m).length - (D - k) - (digitsOf m).length = 0 := by omega
    rw [h0, List.drop_zero]
  rw [htake, hdrop, stripTrailingZeroChars_append_replicate]
  obtain ⟨hlast, hne0⟩ := digitsOf_getLast_ne_zero hm10
  have hdropne : (digitsOf m).drop ((digitsOf m).length - (D - k)) ≠ [] := by
    intro hnil
    have hlen2 := congrArg List.length hnil
    rw [List.length_drop] at hlen2
    simp at hlen2
    omega
  have hlast2 : ((digitsOf m).drop ((digitsOf m).length - (D - k))).getLast? =
      some (digitChar (m % 10)) := by
    have hsplit : digitsOf m =
        (digitsOf m).take ((digitsOf m).length - (D - k)) ++
          (digitsOf m).drop ((digitsOf m).length - (D - k)) := by
      rw [List.take_append_drop]
    conv at hlast => rw [hsplit]
    rwa [List.getLast?_append_of_ne_nil _ hdropne] at hlast
  rw [stripTrailingZeroChars_of_getLast hlast2 hne0]
  have hemp : ((digitsOf m).drop ((digitsOf m).length - (D - k))).isEmpty = false := by
    rcases hld : (digitsOf m).drop ((digitsOf m).length - (D - k)) with _ | ⟨a, t⟩
    · exact absurd hld hdropne
    · rfl
  rw [hemp]
  simp

lemma specCanonical_case2 {m k D : ℕ} (hm0 : m ≠ 0) (hm10 : m % 10 ≠ 0) (hD : D ≠ 0)
    (hk : k < D) (he : (digitsOf m).length ≤ D - k) :
    specCanonical (m * 10 ^ k) D =
      ⟨'0' :: '.' :: (List.replicate (D - k - (digitsOf m).length) '0' ++ digitsOf m)⟩ := by
  have hds : digitsOf (m * 10 ^ k) = digitsOf m ++ List.replicate k '0' :=
    digitsOf_mul_pow10 hm0 k
  have hL := digitsOf_length_pos m
  unfold specCanonical
  rw [if_neg hD]
  simp only [hds, List.length_append, List.length_replicate]
  have hpad : D + 1 - ((digitsOf m).length + k) = (D - k - (digitsOf m).length) + 1 := by
    omega
  rw [hpad]
  have hidx : D - k - (digitsOf m).length + 1 + ((digitsOf m).length + k) - D = 1 := by omega
  rw [hidx]
  have htake :
      (List.replicate (D - k - (digitsOf m).length + 1) '0' ++
        (digitsOf m ++ List.replicate k '0')).take 1 = ['0'] := by
    rw [List.take_append_eq_append_take, List.take_replicate, List.length_replicate]
    have h3 : 1 ⊓ (D - k - (digitsOf m).length + 1) = 1 := by omega
    have h4 : 1 - (D - k - (digitsOf m).length + 1) = 0 := by omega
    rw [h3, h4]
    simp [List.replicate_one]
  have hdrop :
      (List.replicate (D - k - (digitsOf m).length + 1) '0' ++
        (digitsOf m ++ List.replicate k '0')).drop 1 =
      (List.replicate (D - k - (digitsOf m).length) '0' ++ digitsOf m) ++
        List.replicate k '0' := by
    rw [List.drop_append_eq_append_drop, List.drop_replicate, List.length_replicate]
    have h2 : (1 : ℕ) - (D - k - (digitsOf m).length + 1) = 0 := by omega
    have h5 : D - k - (digitsOf m).length + 1 - 1 = D - k - (digitsOf m).length := by omega
    rw [h2, h5, List.drop_zero, List.append_assoc]
  rw [htake, hdrop, stripTrailingZeroChars_append_replicate]
  obtain ⟨hlast, hne0⟩ := digitsOf_getLast_ne_zero hm10
  have hlast2 : (List.replicate (D - k - (digitsOf m).length) '0' ++ digitsOf m).getLast? =
      some (digitChar (m % 10)) := by
    rw [List.getLast?_append_of_ne_nil _ (digitsOf_ne_nil m)]
    exact hlast
  rw [stripTrailingZeroChars_of_getLast hlast2 hne0]
  have hemp : (List.replicate (D - k - (digitsOf m).length) '0' ++ digitsOf m).isEmpty =
      false := by
    simp [List.isEmpty_iff, digitsOf_ne_nil m]
  rw [hemp]
  simp

end Monitor

namespace Monitor

lemma format_eq_specCanonical {raw tok : String} {n : ℕ} {d : Int}
    (hraw : pyDecimalParse raw = some ⟨false, n, 0⟩) (htok : pyIntDec tok = some d)
    (hd : 0 < d)
    (hcond : n = 0 ∨
      ((digitsOf (stripZeros n).1).length ≤ DECIMAL_PREC ∧
        ((stripZeros n).2 : Int) ≤ d ∧
        d ≤ (stripZeros n).2 + (digitsOf (stripZeros n).1).length + 5)) :
    format_token_amount raw tok = .ok (specCanonical n d.toNat) := by
  have hD0 : d.toNat ≠ 0 := by omega
  have hDd : (d.toNat : Int) = d := Int.toNat_of_nonneg (by omega)
  unfold format_token_amount
  rw [htok]
  simp only [Option.getD_some]
  rw [if_neg (by omega : ¬ d = 0), hraw]
  show Except.ok (decStr (divPow10Normalized ⟨false, n, 0⟩ d)) =
    Except.ok (specCanonical n d.toNat)
  congr 1
  by_cases hn : n = 0
  · subst hn
    have hdiv : divPow10Normalized ⟨false, 0, 0⟩ d = ⟨false, 0, 0⟩ := by
      unfold divPow10Normalized
      simp
    rw [hdiv, specCanonical_zero hD0]
    have h0 := decStr_exp_zero false 0
    simpa using h0
  · rcases hcond with hc0 | ⟨hL, hk, hadj⟩
    · exact absurd hc0 hn
    obtain ⟨heq, hm10, hm0⟩ := stripZeros_spec hn
    have hdiv : divPow10Normalized ⟨false, n, 0⟩ d =
        ⟨false, (stripZeros n).1, ((stripZeros n).2 : Int) - d⟩ := by
      unfold divPow10Normalized
      simp only
      rw [if_neg hn, if_pos hL]
      simp only [zero_add]
    rw [hdiv]
    conv_rhs => rw [heq]
    by_cases hkD : (stripZeros n).2 = d.toNat
    · have hexp : ((stripZeros n).2 : Int) - d = 0 := by omega
      rw [hexp, hkD, specCanonical_case0 hm0 hD0]
      have h0 := decStr_exp_zero false (stripZeros n).1
      simpa using h0
    · have hkD2 : (stripZeros n).2 < d.toNat := by omega
      have hexp : ((stripZeros n).2 : Int) - d =
          -(((d.toNat - (stripZeros n).2 : ℕ) : Int)) := by
        omega
      rw [hexp]
      by_cases hcase : d.toNat - (stripZeros n).2 < (digitsOf (stripZeros n).1).length
      · rw [decStr_negexp_lt (by omega) hcase,
          specCanonical_case1 hm0 hm10 hD0 hkD2 hcase]
      · have hge := Nat.le_of_not_lt hcase
        have hadj2 : d.toNat - (stripZeros n).2 ≤ (digitsOf (stripZeros n).1).length + 5 := by
          omega
        rw [decStr_negexp_ge (by omega) hge hadj2,
          specCanonical_case2 hm0 hm10 hD0 hkD2 hge]

end Monitor

namespace Monitor

/-- C8 counterexample: `format_token_amount("100", "1")` returns the
scientific-notation string `"1E+1"` produced by `Decimal.normalize`,
not the plain canonical decimal form `"10"` of the value `100 / 10^1`
with trailing zeros and trailing decimal point stripped. -/
theorem format_scientific_notation_cex :
    format_token_amount "100" "1" = .ok "1E+1" ∧ specCanonical 100 1 = "10" ∧
      format_token_amount "100" "1" ≠ .ok (specCanonical 100 1) := by
  refine ⟨by decide, by decide, by decide⟩

/-- C8 (amended): a decimals count of 0 returns the raw string
unchanged; the three cited examples hold; and for a raw value that is a
nonnegative decimal-integer string, the output is the value `n / 10^d`
in canonical plain decimal form (trailing fractional zeros and trailing
decimal point stripped) whenever the reduced value `m * 10^(k-d)`
(with `10 ∤ m`) has at most 28 significant digits, `k ≤ d` (nonpositive
normalized exponent), and `d - k ≤ (number of digits of m) + 5`
(adjusted exponent at least `-6`); outside that range the code emits
scientific notation or a 28-digit rounding instead. -/
theorem format_token_amount_canonical :
    (∀ raw tok : String, pyIntDec tok = some 0 → format_token_amount raw tok = .ok raw) ∧
    (format_token_amount "1000000000000000000" "18" = .ok "1" ∧
      format_token_amount "1500000000000000000" "18" = .ok "1.5" ∧
      format_token_amount "5" "0" = .ok "5") ∧
    (∀ (raw tok : String) (n : ℕ) (d : Int),
      pyDecimalParse raw = some ⟨false, n, 0⟩ → pyIntDec tok = some d → 0 < d →
      (n = 0 ∨
        ((digitsOf (stripZeros n).1).length ≤ DECIMAL_PREC ∧
          ((stripZeros n).2 : Int) ≤ d ∧
          d ≤ (stripZeros n).2 + (digitsOf (stripZeros n).1).length + 5)) →
      format_token_amount raw tok = .ok (specCanonical n d.toNat)) := by
  refine ⟨?_, ⟨by decide, by decide, by decide⟩, ?_⟩
  · intro raw tok h
    unfold format_token_amount
    rw [h]
    simp
  · intro raw tok n d h1 h2 h3 h4
    exact format_eq_specCanonical h1 h2 h3 h4

/-- Witness for `format_token_amount_canonical` at concrete inputs:
`format("314159000", "4")` is the canonical `"31415.9"`. -/
theorem format_token_amount_canonical_witness :
    format_token_amount "314159000" "4" = .ok (specCanonical 314159000 4) ∧
      specCanonical 314159000 4 = "31415.9" := by
  have h := format_token_amount_canonical.2.2 "314159000" "4" 314159000 4
    (by decide) (by decide) (by decide)
    (Or.inr ⟨by decide, by decide, by decide⟩)
  exact ⟨by simpa using h, by decide⟩

end Monitor

namespace Monitor

/-! ## Except and round helper lemmas -/

@[simp] lemma exceptBind_ok {ε α β : Type} (a : α) (f : α → Except ε β) :
    ((Except.ok a : Except ε α) >>= f) = f a := rfl

@[simp] lemma exceptBind_err {ε α β : Type} (e : ε) (f : α → Except ε β) :
    ((Except.error e : Except ε α) >>= f) = Except.error e := rfl

@[simp] lemma exceptMap_ok {ε α β : Type} (g : α → β) (a : α) :
    (Except.ok a : Except ε α).map g = Except.ok (g a) := rfl

@[simp] lemma exceptPure_eq_ok {ε α : Type} (a : α) :
    (pure a : Except ε α) = Except.ok a := rfl

lemma except_bind_ok {ε α β : Type} {x : Except ε α} {f : α → Except ε β} {c : β}
    (h : (x >>= f) = .ok c) : ∃ a, x = .ok a ∧ f a = .ok c := by
  cases x with
  | ok a => exact ⟨a, rfl, h⟩
  | error e => simp at h

/-- The identifier the monitor reads from a transfer whose hash key is
present. -/
def hashD (tx : Tx) : String := tx.hash.getD ""

/-- The identifier set of a list of transfers. -/
def idsOf (l : List Tx) : Finset String := (l.map hashD).toFinset

@[simp] lemma idsOf_nil : idsOf [] = ∅ := rfl

@[simp] lemma idsOf_cons (tx : Tx) (l : List Tx) :
    idsOf (tx :: l) = insert (hashD tx) (idsOf l) := by
  simp [idsOf]

lemma getHash_eq {tx : Tx} {h : String} (hh : tx.hash = some h) :
    getHash tx = .ok h ∧ hashD tx = h := by
  constructor
  · simp [getHash, hh]
  · simp [hashD, hh]

lemma union_insert_mem {s t : Finset String} {h : String} (hmem : h ∈ s) :
    s ∪ insert h t = s ∪ t := by
  ext x
  simp only [Finset.mem_union, Finset.mem_insert]
  constructor
  · rintro (hx | rfl | hx)
    · exact Or.inl hx
    · exact Or.inl hmem
    · exact Or.inr hx
  · rintro (hx | hx)
    · exact Or.inl hx
    · exact Or.inr (Or.inr hx)

lemma sdiff_insert_mem {s t : Finset String} {h : String} (hmem : h ∈ s) :
    insert h t \ s = t \ s := by
  ext x
  simp only [Finset.mem_sdiff, Finset.mem_insert]
  constructor
  · rintro ⟨rfl | hx, hns⟩
    · exact absurd hmem hns
    · exact ⟨hx, hns⟩
  · rintro ⟨hx, hns⟩
    exact ⟨Or.inr hx, hns⟩

lemma union_insert_comm (s t : Finset String) (h : String) :
    insert h s ∪ t = s ∪ insert h t := by
  ext x
  simp only [Finset.mem_union, Finset.mem_insert]
  tauto

lemma insert_sdiff_not_mem {s t : Finset String} {h : String} (hmem : h ∉ s) :
    insert h (t \ insert h s) = insert h t \ s := by
  ext x
  simp only [Finset.mem_sdiff, Finset.mem_insert]
  constructor
  · rintro (rfl | ⟨hx, hns⟩)
    · exact ⟨Or.inl rfl, hmem⟩
    · exact ⟨Or.inr hx, fun hs => hns (Or.inr hs)⟩
  · rintro ⟨rfl | hx, hns⟩
    · exact Or.inl rfl
    · rcases eq_or_ne x h with rfl | hxh
      · exact Or.inl rfl
      · exact Or.inr ⟨hx, fun hs => hs.elim hxh hns⟩

lemma seedAdd_eq : ∀ {l : List Tx}, (∀ tx ∈ l, tx.hash ≠ none) → ∀ (seen : Finset String),
    seedAdd seen l = .ok (seen ∪ idsOf l) := by
  intro l
  induction l with
  | nil => intro _ seen; simp [seedAdd]
  | cons tx rest ih =>
    intro hh seen
    match htx : tx.hash with
    | none => exact absurd htx (hh tx (by simp))
    | some h =>
      obtain ⟨hg, hd⟩ := getHash_eq htx
      simp only [seedAdd, hg, exceptBind_ok]
      rw [ih (fun t ht => hh t (by simp [ht])) (insert h seen)]
      rw [idsOf_cons, hd, union_insert_comm]

lemma hashSetOf_eq : ∀ {l : List Tx}, (∀ tx ∈ l, tx.hash ≠ none) →
    hashSetOf l = .ok (idsOf l) := by
  intro l
  induction l with
  | nil => intro _; rfl
  | cons tx rest ih =>
    intro hh
    match htx : tx.hash with
    | none => exact absurd htx (hh tx (by simp))
    | some h =>
      obtain ⟨hg, hd⟩ := getHash_eq htx
      simp only [hashSetOf, hg, exceptBind_ok]
      rw [ih (fun t ht => hh t (by simp [ht]))]
      simp [hd]

lemma steadyDiff_spec : ∀ {l : List Tx}, (∀ tx ∈ l, tx.hash ≠ none) →
    ∀ (seen : Finset String), ∃ nl,
      steadyDiff seen l = .ok (seen ∪ idsOf l, nl) ∧
      nl.Sublist l ∧
      (∀ tx ∈ nl, hashD tx ∉ seen) ∧
      (nl.map hashD).Nodup ∧
      (nl.map hashD).toFinset = idsOf l \ seen := by
  intro l
  induction l with
  | nil =>
    intro _ seen
    exact ⟨[], by simp [steadyDiff], by simp, by simp, by simp, by simp⟩
  | cons tx rest ih =>
    intro hh seen
    have hrest : ∀ t ∈ rest, t.hash ≠ none := fun t ht => hh t (by simp [ht])
    match htx : tx.hash with
    | none => exact absurd htx (hh tx (by simp))
    | some h =>
      obtain ⟨hg, hd⟩ := getHash_eq htx
      by_cases hmem : h ∈ seen
      · obtain ⟨nl, hok, hsub, hnots, hnd, hset⟩ := ih hrest seen
        refine ⟨nl, ?_, hsub.cons tx, hnots, hnd, ?_⟩
        · simp only [steadyDiff, hg, exceptBind_ok, if_pos hmem]
          rw [hok, idsOf_cons, hd, union_insert_mem hmem]
        · rw [hset, idsOf_cons, hd, sdiff_insert_mem hmem]
      · obtain ⟨nl, hok, hsub, hnots, hnd, hset⟩ := ih hrest (insert h seen)
        refine ⟨tx :: nl, ?_, hsub.cons₂ tx, ?_, ?_, ?_⟩
        · simp only [steadyDiff, hg, exceptBind_ok, if_neg hmem]
          rw [hok]
          simp only [exceptMap_ok]
          rw [idsOf_cons, hd, union_insert_comm]
        · intro t ht
          rcases List.mem_cons.mp ht with rfl | ht2
          · rw [hd]; exact hmem
          · exact fun hx => hnots t ht2 (Finset.mem_insert_of_mem hx)
        · simp only [List.map_cons, List.nodup_cons]
          refine ⟨?_, hnd⟩
          intro hmem2
          have hmem3 : hashD tx ∈ (nl.map hashD).toFinset := List.mem_toFinset.mpr hmem2
          rw [hset] at hmem3
          have hmem4 := Finset.mem_sdiff.mp hmem3
          exact hmem4.2 (by rw [hd]; exact Finset.mem_insert_self h seen)
        · simp only [List.map_cons, List.toFinset_cons]
          rw [hset, idsOf_cons, hd, insert_sdiff_not_mem hmem]

end Monitor

namespace Monitor

/-! ## print_transfer and transferRound lemmas -/

lemma format_ok_of_parse {raw : String} (tok : String) {x : Dec}
    (h : pyDecimalParse raw = some x) : ∃ s, format_token_amount raw tok = .ok s := by
  unfold format_token_amount
  by_cases h0 : ((pyIntDec tok).getD 18 : Int) = 0
  · rw [if_pos h0]
    exact ⟨raw, rfl⟩
  · rw [if_neg h0, h]
    exact ⟨_, rfl⟩

lemma print_transfer_ok {tx : Tx} (t : String)
    (h : pyDecimalOk (tx.value.getD "0") = true) :
    print_transfer tx t = .ok () := by
  rcases hp : pyDecimalParse (tx.value.getD "0") with _ | x
  · rw [pyDecimalOk, hp] at h
    simp at h
  · unfold print_transfer
    by_cases he : t = "ETH"
    · rw [if_pos he]
      obtain ⟨s, hs⟩ := format_ok_of_parse "18" hp
      rw [hs]
      rfl
    · rw [if_neg he]
      by_cases ht : t = "TOKEN"
      · rw [if_pos ht]
        obtain ⟨s, hs⟩ := format_ok_of_parse (tx.tokenDecimal.getD "18") hp
        rw [hs]
        rfl
      · rw [if_neg ht]
        rfl

lemma forM_print_ok (t : String) : ∀ {l : List Tx},
    (∀ tx ∈ l, pyDecimalOk (tx.value.getD "0") = true) →
    l.forM (fun tx => print_transfer tx t) = .ok PUnit.unit := by
  intro l
  induction l with
  | nil => intro _; rfl
  | cons tx rest ih =>
    intro hpr
    have hstep : ((tx :: rest).forM fun tx => print_transfer tx t) =
        (print_transfer tx t >>= fun _ => rest.forM fun tx => print_transfer tx t) := rfl
    rw [hstep, print_transfer_ok t (hpr tx (by simp)), exceptBind_ok]
    exact ih (fun t2 ht => hpr t2 (by simp [ht]))

lemma transferRound_fetch_fail {fr : Bool} {addr t : String} {seen : Finset String}
    {resp : ApiResponse Tx} (hf : fetch_transfers resp = none) :
    transferRound fr addr t seen resp = .ok (seen, []) := by
  unfold transferRound
  rw [hf]

lemma filter_incoming_nil (addr t : String) : filter_incoming [] addr t = .ok [] := by
  unfold filter_incoming
  by_cases he : t = "ETH" <;> simp [he, filterExc]

lemma transferRound_empty {fr : Bool} {addr t : String} {seen : Finset String}
    {resp : ApiResponse Tx} (hf : fetch_transfers resp = some [])
    (hcard : seen.card ≤ MAX_SEEN_HASHES) :
    transferRound fr addr t seen resp = .ok (seen, []) := by
  unfold transferRound
  rw [hf]
  simp only [filter_incoming_nil, exceptBind_ok]
  have hres : ¬ MAX_SEEN_HASHES < seen.card := by omega
  cases fr
  · have hsd : steadyDiff seen ([] : List Tx) = .ok (seen, []) := rfl
    have hfm : (([] : List Tx).forM fun tx => print_transfer tx t) =
        (Except.ok PUnit.unit : Except PyErr PUnit) := rfl
    simp only [Bool.false_eq_true, if_false, hsd, exceptBind_ok, exceptPure_eq_ok,
      List.reverse_nil, hfm]
    rw [if_neg hres]
  · have hsa : seedAdd seen ([] : List Tx) = .ok seen := rfl
    simp only [if_true, hsa, exceptBind_ok, exceptPure_eq_ok]
    rw [if_neg hres]

end Monitor

namespace Monitor

lemma transferRound_seeding {address t : String} {seen : Finset String}
    {resp : ApiResponse Tx} {transfers incoming : List Tx}
    (hf : fetch_transfers resp = some transfers)
    (hfil : filter_incoming transfers address t = .ok incoming)
    (hh : ∀ tx ∈ incoming, tx.hash ≠ none) :
    transferRound true address t seen resp =
      .ok ((if MAX_SEEN_HASHES < (seen ∪ idsOf incoming).card then idsOf incoming
        else seen ∪ idsOf incoming), []) := by
  unfold transferRound
  rw [hf]
  simp only [hfil, exceptBind_ok, if_true, seedAdd_eq hh seen, exceptPure_eq_ok]
  by_cases hc : MAX_SEEN_HASHES < (seen ∪ idsOf incoming).card
  · rw [if_pos hc, if_pos hc]
    simp only [hashSetOf_eq hh, exceptBind_ok, exceptPure_eq_ok]
  · rw [if_neg hc, if_neg hc]

lemma transferRound_steady {address t : String} {seen : Finset String}
    {resp : ApiResponse Tx} {transfers incoming : List Tx}
    (hf : fetch_transfers resp = some transfers)
    (hfil : filter_incoming transfers address t = .ok incoming)
    (hh : ∀ tx ∈ incoming, tx.hash ≠ none)
    (hpr : ∀ tx ∈ incoming, pyDecimalOk (tx.value.getD "0") = true) :
    ∃ nl : List Tx,
      transferRound false address t seen resp =
        .ok ((if MAX_SEEN_HASHES < (seen ∪ idsOf incoming).card then idsOf incoming
          else seen ∪ idsOf incoming), nl.reverse) ∧
      nl.Sublist incoming ∧ (∀ tx ∈ nl, hashD tx ∉ seen) ∧
      (nl.map hashD).Nodup ∧ (nl.map hashD).toFinset = idsOf incoming \ seen := by
  obtain ⟨nl, hok, hsub, hnots, hnd, hset⟩ := steadyDiff_spec hh seen
  refine ⟨nl, ?_, hsub, hnots, hnd, hset⟩
  have hprn : ∀ tx ∈ nl.reverse, pyDecimalOk (tx.value.getD "0") = true := by
    intro tx htx
    exact hpr tx (hsub.subset (List.mem_reverse.mp htx))
  unfold transferRound
  rw [hf]
  simp only [hfil, exceptBind_ok, Bool.false_eq_true, if_false, hok,
    forM_print_ok t hprn, exceptPure_eq_ok]
  by_cases hc : MAX_SEEN_HASHES < (seen ∪ idsOf incoming).card
  · rw [if_pos hc, if_pos hc]
    simp only [hashSetOf_eq hh, exceptBind_ok, exceptPure_eq_ok]
  · rw [if_neg hc, if_neg hc]

end Monitor

namespace Monitor

lemma transferRound_ok_spec {fr : Bool} {address t : String} {seen seen2 : Finset String}
    {resp : ApiResponse Tx} {transfers incoming alerts : List Tx}
    (hf : fetch_transfers resp = some transfers)
    (hfil : filter_incoming transfers address t = .ok incoming)
    (hh : ∀ tx ∈ incoming, tx.hash ≠ none)
    (hrun : transferRound fr address t seen resp = .ok (seen2, alerts)) :
    seen2 = (if MAX_SEEN_HASHES < (seen ∪ idsOf incoming).card then idsOf incoming
      else seen ∪ idsOf incoming) ∧
    (fr = true → alerts = []) ∧
    (fr = false → ∃ nl : List Tx, alerts = nl.reverse ∧ nl.Sublist incoming ∧
      (∀ tx ∈ nl, hashD tx ∉ seen) ∧ (nl.map hashD).Nodup ∧
      (nl.map hashD).toFinset = idsOf incoming \ seen) := by
  cases fr
  · obtain ⟨nl, hok, hsub, hnots, hnd, hset⟩ := steadyDiff_spec hh seen
    unfold transferRound at hrun
    rw [hf] at hrun
    simp only [hfil, exceptBind_ok, Bool.false_eq_true, if_false, hok,
      exceptPure_eq_ok] at hrun
    obtain ⟨u, hu, hrest⟩ := except_bind_ok hrun
    by_cases hc : MAX_SEEN_HASHES < (seen ∪ idsOf incoming).card
    · rw [if_pos hc] at hrest
      simp only [hashSetOf_eq hh, exceptBind_ok, exceptPure_eq_ok] at hrest
      have hpair := Except.ok.inj hrest
      have h1 : idsOf incoming = seen2 := congrArg Prod.fst hpair
      have h2 : nl.reverse = alerts := congrArg Prod.snd hpair
      refine ⟨by rw [if_pos hc, ← h1], fun hft => absurd hft (by decide), fun _ => ?_⟩
      exact ⟨nl, h2.symm, hsub, hnots, hnd, hset⟩
    · rw [if_neg hc] at hrest
      have hpair := Except.ok.inj hrest
      have h1 : seen ∪ idsOf incoming = seen2 := congrArg Prod.fst hpair
      have h2 : nl.reverse = alerts := congrArg Prod.snd hpair
      refine ⟨by rw [if_neg hc, ← h1], fun hft => absurd hft (by decide), fun _ => ?_⟩
      exact ⟨nl, h2.symm, hsub, hnots, hnd, hset⟩
  · rw [transferRound_seeding hf hfil hh] at hrun
    have hpair := Except.ok.inj hrun
    have h1 : (if MAX_SEEN_HASHES < (seen ∪ idsOf incoming).card then idsOf incoming
        else seen ∪ idsOf incoming) = seen2 := congrArg Prod.fst hpair
    have h2 : ([] : List Tx) = alerts := congrArg Prod.snd hpair
    exact ⟨h1.symm, fun _ => h2.symm, fun hft => absurd hft (by decide)⟩

end Monitor

namespace Monitor

/-! ## Aave round lemmas -/

@[simp] lemma aaveHashSet_nil : aaveHashSet [] = ∅ := rfl

@[simp] lemma aaveHashSet_cons (lg : LogEntry) (l : List LogEntry) :
    aaveHashSet (lg :: l) = insert (logHashD lg) (aaveHashSet l) := by
  simp [aaveHashSet]

lemma aaveSeed_eq : ∀ (logs : List LogEntry) (seen : Finset String),
    aaveSeed seen logs = seen ∪ aaveHashSet logs := by
  intro logs
  induction logs with
  | nil => intro seen; simp [aaveSeed]
  | cons lg rest ih =>
    intro seen
    have hstep : aaveSeed seen (lg :: rest) = aaveSeed (insert (logHashD lg) seen) rest := rfl
    rw [hstep, ih, aaveHashSet_cons, union_insert_comm]

lemma aaveDiff_spec : ∀ (l : List LogEntry) (seen : Finset String),
    (aaveDiff seen l).1 = seen ∪ (aaveHashSet l).erase "" ∧
    (aaveDiff seen l).2.Sublist l ∧
    (∀ lg ∈ (aaveDiff seen l).2, logHashD lg ≠ "" ∧ logHashD lg ∉ seen) ∧
    ((aaveDiff seen l).2.map logHashD).toFinset = (aaveHashSet l).erase "" \ seen := by
  intro l
  induction l with
  | nil =>
    intro seen
    refine ⟨by simp [aaveDiff], by simp [aaveDiff], by simp [aaveDiff], by simp [aaveDiff]⟩
  | cons lg rest ih =>
    intro seen
    by_cases hc : logHashD lg ≠ "" ∧ logHashD lg ∉ seen
    · obtain ⟨h1, h2, h3, h4⟩ := ih (insert (logHashD lg) seen)
      have hstep0 : aaveDiff seen (lg :: rest) =
          (if logHashD lg ≠ "" ∧ logHashD lg ∉ seen then
            ((aaveDiff (insert (logHashD lg) seen) rest).1,
              lg :: (aaveDiff (insert (logHashD lg) seen) rest).2)
          else aaveDiff seen rest) := rfl
      rw [hstep0, if_pos hc]
      refine ⟨?_, ?_, ?_, ?_⟩
      · simp only [h1, aaveHashSet_cons]
        rw [Finset.erase_insert_of_ne hc.1, union_insert_comm]
      · exact h2.cons₂ lg
      · intro g hg
        rcases List.mem_cons.mp hg with rfl | hg2
        · exact hc
        · obtain ⟨hga, hgb⟩ := h3 g hg2
          exact ⟨hga, fun hx => hgb (Finset.mem_insert_of_mem hx)⟩
      · simp only [List.map_cons, List.toFinset_cons]
        rw [h4, aaveHashSet_cons, Finset.erase_insert_of_ne hc.1,
          insert_sdiff_not_mem hc.2]
    · obtain ⟨h1, h2, h3, h4⟩ := ih seen
      have hstep0 : aaveDiff seen (lg :: rest) =
          (if logHashD lg ≠ "" ∧ logHashD lg ∉ seen then
            ((aaveDiff (insert (logHashD lg) seen) rest).1,
              lg :: (aaveDiff (insert (logHashD lg) seen) rest).2)
          else aaveDiff seen rest) := rfl
      rw [hstep0, if_neg hc]
      by_cases hemp : logHashD lg = ""
      · have he2 : (insert (logHashD lg) (aaveHashSet rest)).erase "" =
            (aaveHashSet rest).erase "" := by
          rw [hemp, Finset.erase_insert_eq_erase]
        refine ⟨?_, h2.cons lg, h3, ?_⟩
        · rw [h1, aaveHashSet_cons, he2]
        · rw [h4, aaveHashSet_cons, he2]
      · have hmem : logHashD lg ∈ seen := by
          by_contra hx
          exact hc ⟨hemp, hx⟩
        have he2 : (insert (logHashD lg) (aaveHashSet rest)).erase "" =
            insert (logHashD lg) ((aaveHashSet rest).erase "") :=
          Finset.erase_insert_of_ne hemp
        refine ⟨?_, h2.cons lg, h3, ?_⟩
        · rw [h1, aaveHashSet_cons, he2, union_insert_mem hmem]
        · rw [h4, aaveHashSet_cons, he2, sdiff_insert_mem hmem]

/-- The parsed block number the monitor reads from a log. -/
def blockOf (lg : LogEntry) : Int := (pyIntHex (lg.blockNumber.getD "0x0")).getD 0

lemma advanceCursor_eq : ∀ {logs : List LogEntry},
    (∀ lg ∈ logs, (pyIntHex (lg.blockNumber.getD "0x0")).isSome = true) →
    ∀ cursor, advanceCursor cursor logs = .ok ((logs.map blockOf).foldl max cursor) := by
  intro logs
  induction logs with
  | nil => intro _ cursor; rfl
  | cons lg rest ih =>
    intro hbn cursor
    rcases hp : pyIntHex (lg.blockNumber.getD "0x0") with _ | b
    · have := hbn lg (by simp)
      rw [hp] at this
      simp at this
    · have h0 : advanceCursor cursor (lg :: rest) =
          (match pyIntHex (lg.blockNumber.getD "0x0") with
            | none => Except.error PyErr.valueError
            | some bn => advanceCursor (if cursor < bn then bn else cursor) rest) := rfl
      have hstep : advanceCursor cursor (lg :: rest) =
          advanceCursor (if cursor < b then b else cursor) rest := by
        rw [h0, hp]
      have hmax : (if cursor < b then b else cursor) = max cursor b := by
        rcases le_or_lt b cursor with h | h
        · rw [if_neg (by omega), max_eq_left h]
        · rw [if_pos h, max_eq_right (le_of_lt h)]
      rw [hstep, hmax, ih (fun g hg => hbn g (by simp [hg]))]
      simp only [List.map_cons, List.foldl_cons]
      have hb : blockOf lg = b := by simp [blockOf, hp]
      rw [hb]

lemma le_foldl_max : ∀ (l : List Int) (c : Int), c ≤ l.foldl max c := by
  intro l
  induction l with
  | nil => intro c; exact le_refl c
  | cons b rest ih =>
    intro c
    simp only [List.foldl_cons]
    exact le_trans (le_max_left c b) (ih (max c b))

end Monitor

namespace Monitor

/-! ## decode_supply_event lemmas -/

lemma decode_ok_tx_hash {oracle : String → Option String} {lg : LogEntry} {ev : SupplyEvent}
    (h : decode_supply_event oracle lg = .ok ev) : ev.tx_hash = logHashD lg := by
  unfold decode_supply_event at h
  obtain ⟨aw, haw, h2⟩ := except_bind_ok h
  obtain ⟨s, hs, h3⟩ := except_bind_ok h2
  obtain ⟨bn, hbn, h4⟩ := except_bind_ok h3
  have hev := Except.ok.inj h4
  rw [← hev]
  rfl

lemma decode_supply_event_ok {lg : LogEntry} (oracle : String → Option String)
    (hbn : (pyIntHex (lg.blockNumber.getD "0x0")).isSome = true)
    (hdata : 130 ≤ (lg.data.getD "0x").length →
      (pyIntHex (pySlice (lg.data.getD "0x") 66 130)).isSome = true) :
    ∃ ev, decode_supply_event oracle lg = .ok ev := by
  rcases hbn2 : pyIntHex (lg.blockNumber.getD "0x0") with _ | bn
  · rw [hbn2] at hbn
    simp at hbn
  unfold decode_supply_event
  simp only []
  have hamount : ∃ aw : Int,
      (if 130 ≤ (lg.data.getD "0x").length then
        (match pyIntHex (pySlice (lg.data.getD "0x") 66 130) with
          | none => (Except.error PyErr.valueError : Except PyErr Int)
          | some v => Except.ok v)
      else Except.ok 0) = .ok aw := by
    by_cases hlen : 130 ≤ (lg.data.getD "0x").length
    · have hsome := hdata hlen
      rcases hsl : pyIntHex (pySlice (lg.data.getD "0x") 66 130) with _ | a
      · rw [hsl] at hsome
        simp at hsome
      · rw [if_pos hlen]
        exact ⟨a, rfl⟩
    · rw [if_neg hlen]
      exact ⟨0, rfl⟩
  obtain ⟨aw, haw⟩ := hamount
  rw [haw]
  simp only [exceptBind_ok]
  have hparse : (pyDecimalParse (intStr aw)).isSome = true := pyDecimalOk_intStr aw
  rcases hx : pyDecimalParse (intStr aw) with _ | x
  · rw [hx] at hparse
    simp at hparse
  obtain ⟨s, hs⟩ := format_ok_of_parse "18" hx
  rw [hs]
  simp only [exceptBind_ok]
  rw [hbn2]
  exact ⟨_, rfl⟩

lemma mapM_decode_ok {oracle : String → Option String} : ∀ {l : List LogEntry},
    (∀ lg ∈ l, (pyIntHex (lg.blockNumber.getD "0x0")).isSome = true) →
    (∀ lg ∈ l, 130 ≤ (lg.data.getD "0x").length →
      (pyIntHex (pySlice (lg.data.getD "0x") 66 130)).isSome = true) →
    ∃ evs, l.mapM (decode_supply_event oracle) = .ok evs := by
  intro l
  induction l with
  | nil => intro _ _; exact ⟨[], rfl⟩
  | cons lg rest ih =>
    intro hbn hdata
    obtain ⟨ev, hev⟩ := decode_supply_event_ok oracle (hbn lg (by simp))
      (hdata lg (by simp))
    obtain ⟨evs, hevs⟩ := ih (fun g hg => hbn g (by simp [hg]))
      (fun g hg => hdata g (by simp [hg]))
    refine ⟨ev :: evs, ?_⟩
    rw [List.mapM_cons, hev]
    simp only [exceptBind_ok]
    rw [hevs]
    rfl

lemma mapM_ok_tx_hashes {oracle : String → Option String} :
    ∀ {l : List LogEntry} {evs : List SupplyEvent},
    l.mapM (decode_supply_event oracle) = .ok evs →
    evs.map SupplyEvent.tx_hash = l.map logHashD := by
  intro l
  induction l with
  | nil =>
    intro evs h
    have : evs = [] := by
      have h0 : (([] : List LogEntry).mapM (decode_supply_event oracle)) =
          (Except.ok [] : Except PyErr (List SupplyEvent)) := rfl
      rw [h0] at h
      exact (Except.ok.inj h).symm
    subst this
    rfl
  | cons lg rest ih =>
    intro evs h
    rw [List.mapM_cons] at h
    obtain ⟨ev, hev, h2⟩ := except_bind_ok h
    obtain ⟨evs2, hevs2, h3⟩ := except_bind_ok h2
    have hev3 : ev :: evs2 = evs := by simpa using h3
    subst hev3
    simp only [List.map_cons]
    rw [decode_ok_tx_hash hev, ih hevs2]

end Monitor

namespace Monitor

/-! ## aaveRound lemmas -/

lemma aaveRound_fetch_fail {oracle : String → Option String} {fr : Bool}
    {seen : Finset String} {cursor : Int} {resp : ApiResponse LogEntry}
    (hf : fetch_aave_supply_logs resp = none) :
    aaveRound oracle fr seen cursor resp = .ok (seen, cursor, []) := by
  unfold aaveRound
  rw [hf]

lemma aaveRound_ok_spec {oracle : String → Option String} {fr : Bool}
    {seen seen2 : Finset String} {cursor cursor2 : Int} {resp : ApiResponse LogEntry}
    {logs : List LogEntry} {events : List SupplyEvent}
    (hf : fetch_aave_supply_logs resp = some logs)
    (hrun : aaveRound oracle fr seen cursor resp = .ok (seen2, cursor2, events)) :
    advanceCursor cursor logs = .ok cursor2 ∧
    (fr = true →
      seen2 = (if MAX_SEEN_HASHES < (seen ∪ aaveHashSet logs).card then aaveHashSet logs
        else seen ∪ aaveHashSet logs) ∧ events = []) ∧
    (fr = false →
      seen2 = (if MAX_SEEN_HASHES < (seen ∪ (aaveHashSet logs).erase "").card
        then aaveHashSet logs else seen ∪ (aaveHashSet logs).erase "") ∧
      events.map SupplyEvent.tx_hash = (aaveDiff seen logs).2.map logHashD) := by
  unfold aaveRound at hrun
  rw [hf] at hrun
  cases fr
  · simp only [Bool.false_eq_true, if_false, exceptBind_ok, exceptPure_eq_ok] at hrun
    obtain ⟨evs, hevs, h2⟩ := except_bind_ok hrun
    obtain ⟨c1, hc1, h3⟩ := except_bind_ok h2
    have hpair := Except.ok.inj h3
    have hseen : (if MAX_SEEN_HASHES < (aaveDiff seen logs).1.card then aaveHashSet logs
        else (aaveDiff seen logs).1) = seen2 := congrArg (fun p => p.1) hpair
    have hcur : c1 = cursor2 := congrArg (fun p => p.2.1) hpair
    have hevents : evs = events := congrArg (fun p => p.2.2) hpair
    obtain ⟨hd1, _, _, _⟩ := aaveDiff_spec logs seen
    refine ⟨by rw [← hcur]; exact hc1, fun hft => absurd hft (by decide), fun _ => ?_⟩
    constructor
    · rw [← hseen, hd1]
    · rw [← hevents]
      exact mapM_ok_tx_hashes hevs
  · simp only [if_true, exceptBind_ok, exceptPure_eq_ok] at hrun
    obtain ⟨c1, hc1, h3⟩ := except_bind_ok hrun
    have hpair := Except.ok.inj h3
    have hseen : (if MAX_SEEN_HASHES < (aaveSeed seen logs).card then aaveHashSet logs
        else aaveSeed seen logs) = seen2 := congrArg (fun p => p.1) hpair
    have hcur : c1 = cursor2 := congrArg (fun p => p.2.1) hpair
    have hevents : ([] : List SupplyEvent) = events := congrArg (fun p => p.2.2) hpair
    refine ⟨by rw [← hcur]; exact hc1, fun _ => ?_, fun hft => absurd hft (by decide)⟩
    constructor
    · rw [← hseen, aaveSeed_eq]
    · exact hevents.symm

lemma aaveRound_ok_total {oracle : String → Option String} {fr : Bool}
    {seen : Finset String} {cursor : Int} {resp : ApiResponse LogEntry}
    (hwf : ∀ logs, fetch_aave_supply_logs resp = some logs → ∀ lg ∈ logs,
      (pyIntHex (lg.blockNumber.getD "0x0")).isSome = true ∧
      (130 ≤ (lg.data.getD "0x").length →
        (pyIntHex (pySlice (lg.data.getD "0x") 66 130)).isSome = true)) :
    ∃ r, aaveRound oracle fr seen cursor resp = .ok r := by
  rcases hfetch : fetch_aave_supply_logs resp with _ | logs
  · exact ⟨(seen, cursor, []), aaveRound_fetch_fail hfetch⟩
  · specialize hwf logs hfetch
    have hbn : ∀ lg ∈ logs, (pyIntHex (lg.blockNumber.getD "0x0")).isSome = true :=
      fun lg hlg => (hwf lg hlg).1
    have hadv := advanceCursor_eq hbn cursor
    unfold aaveRound
    rw [hfetch]
    cases fr
    · simp only [Bool.false_eq_true, if_false, exceptBind_ok, exceptPure_eq_ok]
      obtain ⟨_, hsub, _, _⟩ := aaveDiff_spec logs seen
      obtain ⟨evs, hevs⟩ := mapM_decode_ok
        (fun lg hlg => hbn lg (hsub.subset hlg))
        (fun lg hlg => (hwf lg (hsub.subset hlg)).2)
      rw [hevs]
      simp only [exceptBind_ok]
      rw [hadv]
      simp only [exceptBind_ok]
      exact ⟨_, rfl⟩
    · simp only [if_true, exceptBind_ok, exceptPure_eq_ok]
      rw [hadv]
      simp only [exceptBind_ok]
      exact ⟨_, rfl⟩

/-! ## Totality of the transfer round on well-formed inputs -/

lemma ethKeep_eq {tx : Tx} (h : (pyIntDec (tx.value.getD "0")).isSome = true) :
    ethKeep tx = .ok ((!(tx.isError == some "1")) &&
      decide (0 < (pyIntDec (tx.value.getD "0")).getD 0)) := by
  unfold ethKeep
  by_cases he : tx.isError = some "1"
  · simp [he]
  · rw [if_neg he]
    rcases hp : pyIntDec (tx.value.getD "0") with _ | v
    · rw [hp] at h
      simp at h
    · have hbe : (tx.isError == some "1") = false := by
        simpa using he
      simp [hbe]

lemma filterExc_eq_filter {p : Tx → Except PyErr Bool} {q : Tx → Bool} :
    ∀ {l : List Tx}, (∀ tx ∈ l, p tx = .ok (q tx)) → filterExc p l = .ok (l.filter q) := by
  intro l
  induction l with
  | nil => intro _; rfl
  | cons tx rest ih =>
    intro hp
    have hstep : filterExc p (tx :: rest) =
        (p tx >>= fun b => filterExc p rest >>= fun r =>
          pure (if b then tx :: r else r)) := rfl
    rw [hstep, hp tx (by simp), exceptBind_ok, ih (fun t ht => hp t (by simp [ht])),
      exceptBind_ok, List.filter_cons]
    by_cases hq : q tx
    · simp [hq]
    · simp [hq]

lemma filter_incoming_ok {l : List Tx} {addr t : String}
    (hv : ∀ tx ∈ l, (pyIntDec (tx.value.getD "0")).isSome = true) :
    ∃ incoming, filter_incoming l addr t = .ok incoming ∧ ∀ tx ∈ incoming, tx ∈ l := by
  unfold filter_incoming
  by_cases he : t = "ETH"
  · rw [if_pos he]
    have hfe := filterExc_eq_filter
      (l := l.filter (recipB (pyLower addr)))
      (p := ethKeep)
      (q := fun tx => (!(tx.isError == some "1")) &&
        decide (0 < (pyIntDec (tx.value.getD "0")).getD 0))
      (fun tx ht => ethKeep_eq (hv tx (List.mem_of_mem_filter ht)))
    refine ⟨_, hfe, ?_⟩
    intro tx htx
    exact List.mem_of_mem_filter (List.mem_of_mem_filter htx)
  · rw [if_neg he]
    exact ⟨_, rfl, fun tx htx => List.mem_of_mem_filter htx⟩

lemma transferRound_ok_total {fr : Bool} {addr t : String} {seen : Finset String}
    {resp : ApiResponse Tx}
    (hwf : ∀ transfers, fetch_transfers resp = some transfers → ∀ tx ∈ transfers,
      tx.hash ≠ none ∧ (pyIntDec (tx.value.getD "0")).isSome = true) :
    ∃ r, transferRound fr addr t seen resp = .ok r := by
  rcases hfetch : fetch_transfers resp with _ | transfers
  · exact ⟨(seen, []), transferRound_fetch_fail hfetch⟩
  · specialize hwf transfers hfetch
    obtain ⟨incoming, hfil, hsub⟩ :=
      @filter_incoming_ok transfers addr t (fun tx ht => (hwf tx ht).2)
    have hh : ∀ tx ∈ incoming, tx.hash ≠ none := fun tx ht => (hwf tx (hsub tx ht)).1
    cases fr
    · have hpr : ∀ tx ∈ incoming, pyDecimalOk (tx.value.getD "0") = true := by
        intro tx ht
        have hsome := (hwf tx (hsub tx ht)).2
        rcases hp : pyIntDec (tx.value.getD "0") with _ | v
        · rw [hp] at hsome
          simp at hsome
        · exact pyDecimalOk_of_pyIntDec hp
      obtain ⟨nl, hok, _, _, _, _⟩ := transferRound_steady hfetch hfil hh hpr
      exact ⟨_, hok⟩
    · exact ⟨_, transferRound_seeding hfetch hfil hh⟩

end Monitor

namespace Monitor

/-! ## Inversion lemmas: what a successful round implies about its inputs -/

lemma except_map_ok {ε α β : Type} {x : Except ε α} {f : α → β} {c : β}
    (h : x.map f = .ok c) : ∃ a, x = .ok a := by
  cases x with
  | ok a => exact ⟨a, rfl⟩
  | error e => simp [Except.map] at h

lemma seedAdd_ok_hashes : ∀ {l : List Tx} {seen s2 : Finset String},
    seedAdd seen l = .ok s2 → ∀ tx ∈ l, tx.hash ≠ none := by
  intro l
  induction l with
  | nil => intro seen s2 _ tx htx; simp at htx
  | cons a rest ih =>
    intro seen s2 h tx htx
    rcases ha : a.hash with _ | v
    · have hbad : seedAdd seen (a :: rest) = .error .keyError := by
        have h0 : seedAdd seen (a :: rest) =
            (getHash a >>= fun h2 => seedAdd (insert h2 seen) rest) := rfl
        rw [h0]
        simp [getHash, ha]
      rw [hbad] at h
      exact absurd h (by simp)
    · rcases List.mem_cons.mp htx with rfl | htx2
      · simp [ha]
      · have h0 : seedAdd seen (a :: rest) =
            (getHash a >>= fun h2 => seedAdd (insert h2 seen) rest) := rfl
        rw [h0] at h
        simp only [getHash, ha, exceptBind_ok] at h
        exact ih h tx htx2

lemma steadyDiff_ok_hashes : ∀ {l : List Tx} {seen : Finset String}
    {r : Finset String × List Tx},
    steadyDiff seen l = .ok r → ∀ tx ∈ l, tx.hash ≠ none := by
  intro l
  induction l with
  | nil => intro seen r _ tx htx; simp at htx
  | cons a rest ih =>
    intro seen r h tx htx
    have h0 : steadyDiff seen (a :: rest) =
        (getHash a >>= fun h2 =>
          if h2 ∈ seen then steadyDiff seen rest
          else (steadyDiff (insert h2 seen) rest).map fun p => (p.1, a :: p.2)) := rfl
    rw [h0] at h
    rcases ha : a.hash with _ | v
    · simp only [getHash, ha, exceptBind_err] at h
      exact absurd h (by simp)
    · rcases List.mem_cons.mp htx with rfl | htx2
      · simp [ha]
      · simp only [getHash, ha, exceptBind_ok] at h
        by_cases hmem : v ∈ seen
        · rw [if_pos hmem] at h
          exact ih h tx htx2
        · rw [if_neg hmem] at h
          obtain ⟨p, hp⟩ := except_map_ok h
          exact ih hp tx htx2

lemma transferRound_ok_inv {fr : Bool} {addr t : String} {seen seen2 : Finset String}
    {resp : ApiResponse Tx} {transfers alerts : List Tx}
    (hfetch : fetch_transfers resp = some transfers)
    (hrun : transferRound fr addr t seen resp = .ok (seen2, alerts)) :
    ∃ incoming, filter_incoming transfers addr t = .ok incoming ∧
      (∀ tx ∈ incoming, tx.hash ≠ none) := by
  unfold transferRound at hrun
  rw [hfetch] at hrun
  rcases hfil : filter_incoming transfers addr t with e | incoming
  · simp only [hfil, exceptBind_err] at hrun
    exact absurd hrun (by simp)
  · simp only [hfil, exceptBind_ok] at hrun
    refine ⟨incoming, rfl, ?_⟩
    cases fr
    · simp only [Bool.false_eq_true, if_false] at hrun
      obtain ⟨q, hq, _⟩ := except_bind_ok hrun
      exact steadyDiff_ok_hashes hq
    · simp only [if_true] at hrun
      obtain ⟨s, hs, _⟩ := except_bind_ok hrun
      exact seedAdd_ok_hashes hs

lemma filterExc_sublist {p : Tx → Except PyErr Bool} : ∀ {l res : List Tx},
    filterExc p l = .ok res → res.Sublist l := by
  intro l
  induction l with
  | nil =>
    intro res h
    have : ([] : List Tx) = res := Except.ok.inj h
    rw [← this]
  | cons a rest ih =>
    intro res h
    have hstep : filterExc p (a :: rest) =
        (p a >>= fun b => filterExc p rest >>= fun r =>
          pure (if b then a :: r else r)) := rfl
    rw [hstep] at h
    obtain ⟨b, hb, h2⟩ := except_bind_ok h
    obtain ⟨r, hr, h3⟩ := except_bind_ok h2
    have hres : (if b then a :: r else r) = res := by simpa using h3
    cases b
    · rw [if_neg (by simp)] at hres
      rw [← hres]
      exact (ih hr).cons a
    · rw [if_pos rfl] at hres
      rw [← hres]
      exact (ih hr).cons₂ a

lemma filter_incoming_length {l incoming : List Tx} {addr t : String}
    (h : filter_incoming l addr t = .ok incoming) : incoming.length ≤ l.length := by
  unfold filter_incoming at h
  by_cases he : t = "ETH"
  · rw [if_pos he] at h
    exact le_trans (filterExc_sublist h).length_le (List.length_filter_le _ l)
  · rw [if_neg he] at h
    have : l.filter (recipB (pyLower addr)) = incoming := Except.ok.inj h
    rw [← this]
    exact List.length_filter_le _ l

lemma idsOf_card_le (l : List Tx) : (idsOf l).card ≤ l.length := by
  unfold idsOf
  exact le_trans (List.toFinset_card_le _) (by rw [List.length_map])

lemma aaveHashSet_card_le (l : List LogEntry) : (aaveHashSet l).card ≤ l.length := by
  unfold aaveHashSet
  exact le_trans (List.toFinset_card_le _) (by rw [List.length_map])

end Monitor

namespace Monitor

/-! ## Bounded-state preservation -/

lemma transferRound_card_le {fr : Bool} {addr t : String} {seen seen2 : Finset String}
    {resp : ApiResponse Tx} {alerts : List Tx}
    (hwin : ∀ l, fetch_transfers resp = some l → l.length ≤ 10)
    (hcard : seen.card ≤ MAX_SEEN_HASHES)
    (hrun : transferRound fr addr t seen resp = .ok (seen2, alerts)) :
    seen2.card ≤ MAX_SEEN_HASHES := by
  rcases hfetch : fetch_transfers resp with _ | transfers
  · rw [transferRound_fetch_fail hfetch] at hrun
    have hs : seen = seen2 := congrArg Prod.fst (Except.ok.inj hrun)
    rw [← hs]
    exact hcard
  · obtain ⟨incoming, hfil, hh⟩ := transferRound_ok_inv hfetch hrun
    obtain ⟨hseen, -, -⟩ := transferRound_ok_spec hfetch hfil hh hrun
    by_cases hc : MAX_SEEN_HASHES < (seen ∪ idsOf incoming).card
    · rw [hseen, if_pos hc]
      have h1 : (idsOf incoming).card ≤ incoming.length := idsOf_card_le incoming
      have h2 : incoming.length ≤ transfers.length := filter_incoming_length hfil
      have h3 : transfers.length ≤ 10 := hwin transfers hfetch
      have : MAX_SEEN_HASHES = 1000 := rfl
      omega
    · rw [hseen, if_neg hc]
      omega

lemma aaveRound_card_le {oracle : String → Option String} {fr : Bool}
    {seen seen2 : Finset String} {cursor cursor2 : Int} {resp : ApiResponse LogEntry}
    {events : List SupplyEvent}
    (hwin : ∀ l, fetch_aave_supply_logs resp = some l → l.length ≤ 1000)
    (hcard : seen.card ≤ MAX_SEEN_HASHES)
    (hrun : aaveRound oracle fr seen cursor resp = .ok (seen2, cursor2, events)) :
    seen2.card ≤ MAX_SEEN_HASHES := by
  rcases hfetch : fetch_aave_supply_logs resp with _ | logs
  · rw [aaveRound_fetch_fail hfetch] at hrun
    have hs : seen = seen2 := congrArg (fun p => p.1) (Except.ok.inj hrun)
    rw [← hs]
    exact hcard
  · obtain ⟨-, htrue, hfalse⟩ := aaveRound_ok_spec hfetch hrun
    have hlogs : (aaveHashSet logs).card ≤ 1000 :=
      le_trans (aaveHashSet_card_le logs) (hwin logs hfetch)
    have hM : MAX_SEEN_HASHES = 1000 := rfl
    cases fr
    · obtain ⟨hseen, -⟩ := hfalse rfl
      by_cases hc : MAX_SEEN_HASHES < (seen ∪ (aaveHashSet logs).erase "").card
      · rw [hseen, if_pos hc]
        omega
      · rw [hseen, if_neg hc]
        omega
    · obtain ⟨hseen, -⟩ := htrue rfl
      by_cases hc : MAX_SEEN_HASHES < (seen ∪ aaveHashSet logs).card
      · rw [hseen, if_pos hc]
        omega
      · rw [hseen, if_neg hc]
        omega

/-- All four seen sets within the `MAX_SEEN_HASHES` bound. -/
def SeenBounded (s : MonitorState) : Prop :=
  s.seenETH.card ≤ MAX_SEEN_HASHES ∧ s.seenTOKEN.card ≤ MAX_SEEN_HASHES ∧
    s.seenNFT.card ≤ MAX_SEEN_HASHES ∧ s.aave_seen.card ≤ MAX_SEEN_HASHES

/-- Every successful query window of a round is within the page sizes
the monitor requests (10 for transfer lists, 1000 for logs). -/
def WindowBounded (inp : RoundInput) : Prop :=
  (∀ l, fetch_transfers inp.eth = some l → l.length ≤ 10) ∧
    (∀ l, fetch_transfers inp.token = some l → l.length ≤ 10) ∧
    (∀ l, fetch_transfers inp.nft = some l → l.length ≤ 10) ∧
    (∀ l, fetch_aave_supply_logs inp.logs = some l → l.length ≤ 1000)

lemma stepMonitor_ok_parts {address : String} {watch : Bool}
    {oracle : String → Option String} {s s2 : MonitorState} {inp : RoundInput}
    {alerts : List Alert}
    (hrun : stepMonitor address watch oracle s inp = .ok (s2, alerts)) :
    ∃ aE aT aN rest,
      transferRound s.first_run address "ETH" s.seenETH inp.eth = .ok (s2.seenETH, aE) ∧
      transferRound s.first_run address "TOKEN" s.seenTOKEN inp.token = .ok (s2.seenTOKEN, aT) ∧
      transferRound s.first_run address "NFT" s.seenNFT inp.nft = .ok (s2.seenNFT, aN) ∧
      (if watch then aaveRound oracle s.first_run s.aave_seen s.aave_from_block inp.logs
        else pure (s.aave_seen, s.aave_from_block, ([] : List SupplyEvent))) =
        .ok (s2.aave_seen, s2.aave_from_block, rest) ∧
      s2.first_run = false := by
  unfold stepMonitor at hrun
  obtain ⟨⟨sE, aE⟩, hE, h2⟩ := except_bind_ok hrun
  obtain ⟨⟨sT, aT⟩, hT, h3⟩ := except_bind_ok h2
  obtain ⟨⟨sN, aN⟩, hN, h4⟩ := except_bind_ok h3
  simp only [] at h4
  by_cases hw : watch
  · rw [if_pos hw] at h4
    obtain ⟨⟨sA, rest⟩, hA, h5⟩ := except_bind_ok h4
    simp only [exceptPure_eq_ok] at h5
    have hpair := Except.ok.inj h5
    have hfin : (⟨sE, sT, sN, sA, rest.1, false⟩ : MonitorState) = s2 :=
      congrArg Prod.fst hpair
    refine ⟨aE, aT, aN, rest.2, ?_, ?_, ?_, ?_, ?_⟩
    · rw [← hfin]; exact hE
    · rw [← hfin]; exact hT
    · rw [← hfin]; exact hN
    · rw [if_pos hw, ← hfin]
      simpa using hA
    · rw [← hfin]
  · rw [if_neg hw] at h4
    simp only [exceptPure_eq_ok, exceptBind_ok] at h4
    have hpair := Except.ok.inj h4
    have hfin : (⟨sE, sT, sN, s.aave_seen, s.aave_from_block, false⟩ : MonitorState) = s2 :=
      congrArg Prod.fst hpair
    refine ⟨aE, aT, aN, [], ?_, ?_, ?_, ?_, ?_⟩
    · rw [← hfin]; exact hE
    · rw [← hfin]; exact hT
    · rw [← hfin]; exact hN
    · rw [if_neg hw, ← hfin]
      rfl
    · rw [← hfin]

lemma stepMonitor_bounded {address : String} {watch : Bool}
    {oracle : String → Option String} {s s2 : MonitorState} {inp : RoundInput}
    {alerts : List Alert}
    (hwin : WindowBounded inp) (hb : SeenBounded s)
    (hrun : stepMonitor address watch oracle s inp = .ok (s2, alerts)) :
    SeenBounded s2 := by
  obtain ⟨aE, aT, aN, rest, hE, hT, hN, hA, -⟩ := stepMonitor_ok_parts hrun
  obtain ⟨hw1, hw2, hw3, hw4⟩ := hwin
  obtain ⟨hb1, hb2, hb3, hb4⟩ := hb
  refine ⟨transferRound_card_le hw1 hb1 hE, transferRound_card_le hw2 hb2 hT,
    transferRound_card_le hw3 hb3 hN, ?_⟩
  by_cases hw : watch
  · rw [if_pos hw] at hA
    exact aaveRound_card_le hw4 hb4 hA
  · rw [if_neg hw] at hA
    have hA2 : s.aave_seen = s2.aave_seen := by
      have := Except.ok.inj (show (Except.ok (s.aave_seen, s.aave_from_block,
        ([] : List SupplyEvent)) : Except PyErr _) =
          .ok (s2.aave_seen, s2.aave_from_block, rest) from by simpa using hA)
      exact congrArg (fun p => p.1) this
    rw [← hA2]
    exact hb4

lemma roundStates_bounded {address : String} {watch : Bool}
    {oracle : String → Option String} :
    ∀ (inputs : List RoundInput) (s : MonitorState), SeenBounded s →
      (∀ inp ∈ inputs, WindowBounded inp) →
      ∀ st ∈ roundStates address watch oracle s inputs, SeenBounded st := by
  intro inputs
  induction inputs with
  | nil =>
    intro s _ _ st hst
    simp [roundStates] at hst
  | cons inp rest ih =>
    intro s hb hwin st hst
    have hstep : roundStates address watch oracle s (inp :: rest) =
        (match stepMonitor address watch oracle s inp with
          | .error _ => []
          | .ok (s1, _) => s1 :: roundStates address watch oracle s1 rest) := rfl
    rw [hstep] at hst
    rcases hrun : stepMonitor address watch oracle s inp with e | ⟨s1, alerts⟩
    · rw [hrun] at hst
      simp at hst
    · rw [hrun] at hst
      have hb1 : SeenBounded s1 := stepMonitor_bounded (hwin inp (by simp)) hb hrun
      rcases List.mem_cons.mp hst with rfl | hst2
      · exact hb1
      · exact ih s1 hb1 (fun i hi => hwin i (by simp [hi])) st hst2

end Monitor

namespace Monitor

/-! ## Totality of a round on well-formed responses -/

/-- A transfer record whose fields parse the way the monitor reads
them: the hash key is present and the value field is an integer
literal. -/
def TxOk (tx : Tx) : Prop :=
  tx.hash ≠ none ∧ (pyIntDec (tx.value.getD "0")).isSome = true

/-- A log whose numeric fields parse: the block number is a hex
literal (the default `"0x0"` when absent) and, when the payload is
long enough to carry one, so is the amount word. -/
def LogOk (lg : LogEntry) : Prop :=
  (pyIntHex (lg.blockNumber.getD "0x0")).isSome = true ∧
    (130 ≤ (lg.data.getD "0x").length →
      (pyIntHex (pySlice (lg.data.getD "0x") 66 130)).isSome = true)

/-- Every record of every successful response of the round is
well-formed. -/
def InputOk (inp : RoundInput) : Prop :=
  (∀ l, fetch_transfers inp.eth = some l → ∀ tx ∈ l, TxOk tx) ∧
    (∀ l, fetch_transfers inp.token = some l → ∀ tx ∈ l, TxOk tx) ∧
    (∀ l, fetch_transfers inp.nft = some l → ∀ tx ∈ l, TxOk tx) ∧
    (∀ l, fetch_aave_supply_logs inp.logs = some l → ∀ lg ∈ l, LogOk lg)

/-- Whether an `Except` computation finished without an exception. -/
def isOkE {α : Type} : Except PyErr α → Bool
  | .ok _ => true
  | .error _ => false

lemma stepMonitor_ok_total {address : String} {watch : Bool}
    {oracle : String → Option String} {s : MonitorState} {inp : RoundInput}
    (h : InputOk inp) :
    ∃ r, stepMonitor address watch oracle s inp = .ok r := by
  obtain ⟨hE, hT, hN, hL⟩ := h
  obtain ⟨⟨sE, aE⟩, hrE⟩ :=
    @transferRound_ok_total s.first_run address "ETH" s.seenETH inp.eth hE
  obtain ⟨⟨sT, aT⟩, hrT⟩ :=
    @transferRound_ok_total s.first_run address "TOKEN" s.seenTOKEN inp.token hT
  obtain ⟨⟨sN, aN⟩, hrN⟩ :=
    @transferRound_ok_total s.first_run address "NFT" s.seenNFT inp.nft hN
  unfold stepMonitor
  rw [hrE]
  simp only [exceptBind_ok]
  rw [hrT]
  simp only [exceptBind_ok]
  rw [hrN]
  simp only [exceptBind_ok]
  by_cases hw : watch
  · obtain ⟨⟨sA, rest⟩, hrA⟩ :=
      @aaveRound_ok_total oracle s.first_run s.aave_seen s.aave_from_block inp.logs hL
    rw [if_pos hw, hrA]
    simp only [exceptBind_ok]
    exact ⟨_, rfl⟩
  · rw [if_neg hw]
    simp only [exceptPure_eq_ok, exceptBind_ok]
    exact ⟨_, rfl⟩

lemma runRounds_ok_total {address : String} {watch : Bool}
    {oracle : String → Option String} :
    ∀ (inputs : List RoundInput) (s : MonitorState),
      (∀ inp ∈ inputs, InputOk inp) →
      ∃ r, runRounds address watch oracle s inputs = .ok r := by
  intro inputs
  induction inputs with
  | nil => intro s _; exact ⟨(s, []), rfl⟩
  | cons inp rest ih =>
    intro s hok
    obtain ⟨⟨s1, a⟩, h1⟩ := stepMonitor_ok_total (hok inp (by simp))
    obtain ⟨⟨s2, later⟩, h2⟩ := ih s1 (fun i hi => hok i (by simp [hi]))
    refine ⟨(s2, a :: later), ?_⟩
    unfold runRounds
    rw [h1]
    simp only [exceptBind_ok]
    rw [h2]
    simp only [exceptBind_ok, exceptPure_eq_ok]

end Monitor

namespace Monitor

/-! ## Claim theorems -/

/-- C1: in a steady-phase transfer-channel round whose query succeeds
and whose filtered survivors hold N identifiers outside the seen set,
exactly N alerts are emitted for that channel in that round; the
reversed alert list is a subsequence of the newest-first survivor list
(so alerts run oldest first, the reverse of query order); every alerted
identifier was unseen; and every new identifier is in the seen set
after the round. -/
theorem steady_round_alert_count {address t : String} {seen seen2 : Finset String}
    {resp : ApiResponse Tx} {transfers incoming alerts : List Tx}
    (hf : fetch_transfers resp = some transfers)
    (hfil : filter_incoming transfers address t = .ok incoming)
    (hh : ∀ tx ∈ incoming, tx.hash ≠ none)
    (hrun : transferRound false address t seen resp = .ok (seen2, alerts)) :
    alerts.length = (idsOf incoming \ seen).card ∧
    alerts.reverse.Sublist incoming ∧
    (∀ tx ∈ alerts, hashD tx ∉ seen) ∧
    (alerts.map hashD).toFinset = idsOf incoming \ seen ∧
    idsOf incoming \ seen ⊆ seen2 := by
  obtain ⟨hseen, -, hsteady⟩ := transferRound_ok_spec hf hfil hh hrun
  obtain ⟨nl, halerts, hsub, hnots, hnd, hset⟩ := hsteady rfl
  subst halerts
  refine ⟨?_, ?_, ?_, ?_, ?_⟩
  · rw [List.length_reverse, ← List.length_map (f := hashD),
      ← List.toFinset_card_of_nodup hnd, hset]
  · rw [List.reverse_reverse]
    exact hsub
  · intro tx htx
    exact hnots tx (List.mem_reverse.mp htx)
  · rw [← hset, List.map_reverse, List.toFinset_reverse]
  · rw [hseen]
    by_cases hc : MAX_SEEN_HASHES < (seen ∪ idsOf incoming).card
    · rw [if_pos hc]
      intro x hx
      exact (Finset.mem_sdiff.mp hx).1
    · rw [if_neg hc]
      intro x hx
      exact Finset.mem_union_right seen (Finset.mem_sdiff.mp hx).1

/-- Witness for C1: with seen = {"B", "A"} and the newest-first window
[C, B, A], exactly the one alert C is emitted and C enters the set. -/
theorem steady_round_alert_count_witness :
    ([mkTx "0xa" "C" "1"] : List Tx).length =
        ((idsOf [mkTx "0xa" "C" "1", mkTx "0xa" "B" "1", mkTx "0xa" "A" "1"]) \
          ({"B", "A"} : Finset String)).card ∧
      ([mkTx "0xa" "C" "1"] : List Tx).reverse.Sublist
        [mkTx "0xa" "C" "1", mkTx "0xa" "B" "1", mkTx "0xa" "A" "1"] ∧
      (∀ tx ∈ ([mkTx "0xa" "C" "1"] : List Tx), hashD tx ∉ ({"B", "A"} : Finset String)) ∧
      (([mkTx "0xa" "C" "1"] : List Tx).map hashD).toFinset =
        (idsOf [mkTx "0xa" "C" "1", mkTx "0xa" "B" "1", mkTx "0xa" "A" "1"]) \
          ({"B", "A"} : Finset String) ∧
      (idsOf [mkTx "0xa" "C" "1", mkTx "0xa" "B" "1", mkTx "0xa" "A" "1"]) \
          ({"B", "A"} : Finset String) ⊆
        ({"B", "A"} : Finset String) ∪
          idsOf [mkTx "0xa" "C" "1", mkTx "0xa" "B" "1", mkTx "0xa" "A" "1"] :=
  @steady_round_alert_count "0xa" "NFT" ({"B", "A"} : Finset String)
    (({"B", "A"} : Finset String) ∪
      idsOf [mkTx "0xa" "C" "1", mkTx "0xa" "B" "1", mkTx "0xa" "A" "1"])
    (okTxs [mkTx "0xa" "C" "1", mkTx "0xa" "B" "1", mkTx "0xa" "A" "1"])
    [mkTx "0xa" "C" "1", mkTx "0xa" "B" "1", mkTx "0xa" "A" "1"]
    [mkTx "0xa" "C" "1", mkTx "0xa" "B" "1", mkTx "0xa" "A" "1"]
    [mkTx "0xa" "C" "1"]
    rfl (by decide) (by decide) (by decide)

end Monitor

namespace Monitor

/-- C3: a seeding-phase channel round whose query succeeds emits no
alert, and every surviving identifier (filtered transfer hash, or log
transaction hash for the protocol channel) is in the corresponding
seen set after the round. -/
theorem seeding_round_seeds_all :
    (∀ (address t : String) (seen seen2 : Finset String) (resp : ApiResponse Tx)
      (transfers incoming alerts : List Tx),
      fetch_transfers resp = some transfers →
      filter_incoming transfers address t = .ok incoming →
      (∀ tx ∈ incoming, tx.hash ≠ none) →
      transferRound true address t seen resp = .ok (seen2, alerts) →
      alerts = [] ∧ ∀ tx ∈ incoming, hashD tx ∈ seen2) ∧
    (∀ (oracle : String → Option String) (seen seen2 : Finset String)
      (cursor cursor2 : Int) (resp : ApiResponse LogEntry) (logs : List LogEntry)
      (events : List SupplyEvent),
      fetch_aave_supply_logs resp = some logs →
      aaveRound oracle true seen cursor resp = .ok (seen2, cursor2, events) →
      events = [] ∧ ∀ lg ∈ logs, logHashD lg ∈ seen2) := by
  constructor
  · intro address t seen seen2 resp transfers incoming alerts hf hfil hh hrun
    obtain ⟨hseen, htrue, -⟩ := transferRound_ok_spec hf hfil hh hrun
    refine ⟨htrue rfl, ?_⟩
    intro tx htx
    have hmem : hashD tx ∈ idsOf incoming :=
      List.mem_toFinset.mpr (List.mem_map_of_mem hashD htx)
    rw [hseen]
    by_cases hc : MAX_SEEN_HASHES < (seen ∪ idsOf incoming).card
    · rw [if_pos hc]
      exact hmem
    · rw [if_neg hc]
      exact Finset.mem_union_right seen hmem
  · intro oracle seen seen2 cursor cursor2 resp logs events hf hrun
    obtain ⟨-, htrue, -⟩ := aaveRound_ok_spec hf hrun
    obtain ⟨hseen, hev⟩ := htrue rfl
    refine ⟨hev, ?_⟩
    intro lg hlg
    have hmem : logHashD lg ∈ aaveHashSet logs :=
      List.mem_toFinset.mpr (List.mem_map_of_mem logHashD hlg)
    rw [hseen]
    by_cases hc : MAX_SEEN_HASHES < (seen ∪ aaveHashSet logs).card
    · rw [if_pos hc]
      exact hmem
    · rw [if_neg hc]
      exact Finset.mem_union_right seen hmem

/-- Witness for C3 at a concrete seeding round of each channel. -/
theorem seeding_round_seeds_all_witness :
    (([] : List Tx) = [] ∧ ∀ tx ∈ ([mkTx "0xa" "A" "1"] : List Tx),
      hashD tx ∈ (∅ ∪ idsOf [mkTx "0xa" "A" "1"] : Finset String)) ∧
    (([] : List SupplyEvent) = [] ∧
      ∀ lg ∈ ([⟨some "L", some "0x5", some "0x"⟩] : List LogEntry),
        logHashD lg ∈ (∅ ∪ aaveHashSet [⟨some "L", some "0x5", some "0x"⟩] : Finset String)) := by
  constructor
  · exact seeding_round_seeds_all.1 "0xa" "NFT" ∅ (∅ ∪ idsOf [mkTx "0xa" "A" "1"])
      (okTxs [mkTx "0xa" "A" "1"]) [mkTx "0xa" "A" "1"] [mkTx "0xa" "A" "1"] []
      rfl (by decide) (by decide) (by decide)
  · exact seeding_round_seeds_all.2 noSender ∅
      (∅ ∪ aaveHashSet [⟨some "L", some "0x5", some "0x"⟩]) 0 5
      (.ok "1" "OK" [⟨some "L", some "0x5", some "0x"⟩])
      [⟨some "L", some "0x5", some "0x"⟩] []
      rfl (by decide)

/-- C5: the block cursor is unchanged by rounds whose log query fails
or returns an empty result, and in every round that completes it is
advanced to the running maximum of the parsed block numbers (hence it
never decreases), in either phase. -/
theorem block_cursor_monotone :
    (∀ (oracle : String → Option String) (fr : Bool) (seen : Finset String)
      (cursor : Int) (resp : ApiResponse LogEntry),
      fetch_aave_supply_logs resp = none →
      aaveRound oracle fr seen cursor resp = .ok (seen, cursor, [])) ∧
    (∀ (oracle : String → Option String) (fr : Bool) (seen seen2 : Finset String)
      (cursor cursor2 : Int) (resp : ApiResponse LogEntry) (events : List SupplyEvent),
      fetch_aave_supply_logs resp = some [] →
      aaveRound oracle fr seen cursor resp = .ok (seen2, cursor2, events) →
      cursor2 = cursor) ∧
    (∀ (oracle : String → Option String) (fr : Bool) (seen seen2 : Finset String)
      (cursor cursor2 : Int) (resp : ApiResponse LogEntry) (logs : List LogEntry)
      (events : List SupplyEvent),
      fetch_aave_supply_logs resp = some logs →
      (∀ lg ∈ logs, (pyIntHex (lg.blockNumber.getD "0x0")).isSome = true) →
      aaveRound oracle fr seen cursor resp = .ok (seen2, cursor2, events) →
      cursor2 = (logs.map blockOf).foldl max cursor ∧ cursor ≤ cursor2) := by
  refine ⟨fun oracle fr seen cursor resp hf => aaveRound_fetch_fail hf, ?_, ?_⟩
  · intro oracle fr seen seen2 cursor cursor2 resp events hf hrun
    obtain ⟨hadv, -, -⟩ := aaveRound_ok_spec hf hrun
    have h0 : advanceCursor cursor ([] : List LogEntry) = .ok cursor := rfl
    rw [h0] at hadv
    exact (Except.ok.inj hadv).symm
  · intro oracle fr seen seen2 cursor cursor2 resp logs events hf hbn hrun
    obtain ⟨hadv, -, -⟩ := aaveRound_ok_spec hf hrun
    rw [advanceCursor_eq hbn cursor] at hadv
    have hc : (logs.map blockOf).foldl max cursor = cursor2 := Except.ok.inj hadv
    refine ⟨hc.symm, ?_⟩
    rw [← hc]
    exact le_foldl_max _ cursor

/-- Witness for C5 at a concrete round: cursor 3 advances to 7. -/
theorem block_cursor_monotone_witness :
    (aaveRound noSender true ∅ 3 (.ok "0" "No records found" []) = .ok (∅, 3, []) ∧
      (7 : Int) = ([(⟨some "L", some "0x7", some "0x"⟩ : LogEntry)].map blockOf).foldl max 3 ∧
      (3 : Int) ≤ 7) := by
  refine ⟨?_, ?_⟩
  · have h2 := block_cursor_monotone.2.1 noSender true ∅ ∅ 3 3
      (.ok "0" "No records found" []) [] rfl (by decide)
    decide
  · have h3 := block_cursor_monotone.2.2 noSender true ∅
      (∅ ∪ aaveHashSet [⟨some "L", some "0x7", some "0x"⟩]) 3 7
      (.ok "1" "OK" [⟨some "L", some "0x7", some "0x"⟩])
      [⟨some "L", some "0x7", some "0x"⟩] []
      rfl (by decide) (by decide)
    exact ⟨h3.1, h3.2⟩

end Monitor

namespace Monitor

/-- C6: an empty-but-successful transfer query (the API message reports
no transactions found) is distinguished from a transport/parse failure:
the failure is `none` and skips the channel round with no state change,
while the empty success is `some []` and runs the round with zero
candidates, leaving the seen set unchanged and alerting nothing. -/
theorem empty_success_vs_failure :
    (fetch_transfers .failure = none) ∧
    (∀ (status msg : String) (result : List Tx), status ≠ "1" →
      containsSub "No transactions found".data msg.data = true →
      fetch_transfers (.ok status msg result) = some []) ∧
    (∀ (status msg : String) (result : List Tx), status ≠ "1" →
      containsSub "No transactions found".data msg.data = false →
      fetch_transfers (.ok status msg result) = none) ∧
    (∀ (fr : Bool) (addr t : String) (seen : Finset String) (resp : ApiResponse Tx),
      fetch_transfers resp = none →
      transferRound fr addr t seen resp = .ok (seen, [])) ∧
    (∀ (fr : Bool) (addr t : String) (seen : Finset String) (resp : ApiResponse Tx),
      fetch_transfers resp = some [] → seen.card ≤ MAX_SEEN_HASHES →
      transferRound fr addr t seen resp = .ok (seen, [])) := by
  refine ⟨rfl, ?_, ?_, ?_, ?_⟩
  · intro status msg result hs hc
    have h0 : fetch_transfers (.ok status msg result) =
        (if status ≠ "1" then
          (if containsSub "No transactions found".data msg.data = true then some []
            else none)
        else some result) := rfl
    rw [h0, if_pos hs, if_pos hc]
  · intro status msg result hs hc
    have h0 : fetch_transfers (.ok status msg result) =
        (if status ≠ "1" then
          (if containsSub "No transactions found".data msg.data = true then some []
            else none)
        else some result) := rfl
    rw [h0, if_pos hs, if_neg (by simp [hc])]
  · intro fr addr t seen resp hf
    exact transferRound_fetch_fail hf
  · intro fr addr t seen resp hf hcard
    exact transferRound_empty hf hcard

/-- Witness for C6 at concrete responses. -/
theorem empty_success_vs_failure_witness :
    fetch_transfers (.ok "0" "No transactions found" [mkTx "0xa" "x" "1"]) = some [] ∧
    fetch_transfers (.ok "0" "NOTOK rate limited" []) = none ∧
    transferRound false "0xa" "ETH" {"h"} .failure = .ok ({"h"}, []) ∧
    transferRound false "0xa" "ETH" {"h"} (.ok "0" "No transactions found" []) =
      .ok ({"h"}, []) :=
  ⟨empty_success_vs_failure.2.1 "0" "No transactions found" [mkTx "0xa" "x" "1"]
      (by decide) (by decide),
    empty_success_vs_failure.2.2.1 "0" "NOTOK rate limited" [] (by decide) (by decide),
    empty_success_vs_failure.2.2.2.1 false "0xa" "ETH" {"h"} .failure rfl,
    empty_success_vs_failure.2.2.2.2 false "0xa" "ETH" {"h"}
      (.ok "0" "No transactions found" []) rfl (by decide)⟩

lemma ethKeep_true {tx : Tx} (h : ethKeep tx = .ok true) :
    tx.isError ≠ some "1" ∧ tx.value ≠ some "0" := by
  unfold ethKeep at h
  by_cases he : tx.isError = some "1"
  · rw [if_pos he] at h
    exact absurd (Except.ok.inj h) (by decide)
  · refine ⟨he, ?_⟩
    intro hv
    rw [if_neg he, hv] at h
    simp only [Option.getD_some] at h
    have h0 : pyIntDec "0" = some 0 := by decide
    rw [h0] at h
    have h1 := Except.ok.inj h
    simp at h1

lemma filterExc_mem {p : Tx → Except PyErr Bool} :
    ∀ {l res : List Tx}, filterExc p l = .ok res → ∀ tx ∈ res, tx ∈ l ∧ p tx = .ok true := by
  intro l
  induction l with
  | nil =>
    intro res h tx htx
    have hres : ([] : List Tx) = res := Except.ok.inj h
    rw [← hres] at htx
    simp at htx
  | cons a rest ih =>
    intro res h tx htx
    have hstep : filterExc p (a :: rest) =
        (p a >>= fun b => filterExc p rest >>= fun r =>
          pure (if b then a :: r else r)) := rfl
    rw [hstep] at h
    obtain ⟨b, hb, h2⟩ := except_bind_ok h
    obtain ⟨r, hr, h3⟩ := except_bind_ok h2
    have hres : (if b then a :: r else r) = res := by simpa using h3
    cases b
    · rw [if_neg (by simp)] at hres
      rw [← hres] at htx
      obtain ⟨hm, hp⟩ := ih hr tx htx
      exact ⟨by simp [hm], hp⟩
    · rw [if_pos rfl] at hres
      rw [← hres] at htx
      rcases List.mem_cons.mp htx with rfl | htx2
      · exact ⟨by simp, hb⟩
      · obtain ⟨hm, hp⟩ := ih hr tx htx2
        exact ⟨by simp [hm], hp⟩

/-- C9: `filter_incoming` keeps exactly the transfers whose recipient
equals the monitored address case-insensitively; for the ETH category
it additionally keeps only transfers that did not error and whose
integer value is positive — in particular every transfer with
`isError = "1"` or `value = "0"` is excluded even when addressed to the
monitored address. -/
theorem filter_incoming_characterization :
    (∀ (l : List Tx) (addr t : String), t ≠ "ETH" →
      filter_incoming l addr t = .ok (l.filter (recipB (pyLower addr)))) ∧
    (∀ (l : List Tx) (addr : String),
      (∀ tx ∈ l, (pyIntDec (tx.value.getD "0")).isSome = true) →
      filter_incoming l addr "ETH" = .ok ((l.filter (recipB (pyLower addr))).filter
        (fun tx => (!(tx.isError == some "1")) &&
          decide (0 < (pyIntDec (tx.value.getD "0")).getD 0)))) ∧
    (∀ (l res : List Tx) (addr : String),
      filter_incoming l addr "ETH" = .ok res →
      ∀ tx ∈ res, recipB (pyLower addr) tx = true ∧
        tx.isError ≠ some "1" ∧ tx.value ≠ some "0") := by
  refine ⟨?_, ?_, ?_⟩
  · intro l addr t ht
    unfold filter_incoming
    rw [if_neg ht]
  · intro l addr hv
    unfold filter_incoming
    rw [if_pos rfl]
    exact filterExc_eq_filter
      (fun tx ht => ethKeep_eq (hv tx (List.mem_of_mem_filter ht)))
  · intro l res addr h
    unfold filter_incoming at h
    rw [if_pos rfl] at h
    intro tx htx
    obtain ⟨hmem, htrue⟩ := filterExc_mem h tx htx
    obtain ⟨h1, h2⟩ := ethKeep_true htrue
    exact ⟨(List.mem_filter.mp hmem).2, h1, h2⟩

/-- Witness for C9: a mixed concrete list is filtered as characterized. -/
theorem filter_incoming_characterization_witness :
    filter_incoming [mkTx "0xa" "A" "1", mkTx "0xb" "B" "1"] "0xA" "NFT" =
      .ok (([mkTx "0xa" "A" "1", mkTx "0xb" "B" "1"].filter (recipB (pyLower "0xA")))) ∧
    filter_incoming [mkTx "0xa" "A" "5", mkTx "0xa" "B" "0"] "0xa" "ETH" =
      .ok (([mkTx "0xa" "A" "5", mkTx "0xa" "B" "0"].filter
          (recipB (pyLower "0xa"))).filter
        (fun tx => (!(tx.isError == some "1")) &&
          decide (0 < (pyIntDec (tx.value.getD "0")).getD 0))) ∧
    (∀ tx ∈ ([mkTx "0xa" "A" "5"] : List Tx), recipB (pyLower "0xa") tx = true ∧
      tx.isError ≠ some "1" ∧ tx.value ≠ some "0") :=
  ⟨filter_incoming_characterization.1 [mkTx "0xa" "A" "1", mkTx "0xb" "B" "1"]
      "0xA" "NFT" (by decide),
    filter_incoming_characterization.2.1 [mkTx "0xa" "A" "5", mkTx "0xa" "B" "0"]
      "0xa" (by decide),
    filter_incoming_characterization.2.2 [mkTx "0xa" "A" "5", mkTx "0xa" "B" "0"]
      [mkTx "0xa" "A" "5"] "0xa" (by decide)⟩

end Monitor

namespace Monitor

/-- C4: whenever a channel's additions push its seen set past
`MAX_SEEN_HASHES` (1000), the set is replaced by exactly the identifier
set of that round's surviving results (a full reset, not a trim); and
with every query window within the page sizes (10 transfers, 1000
logs), every seen set's size is at most 1000 immediately after every
round of a run from the initial state. -/
theorem seen_set_bounded_and_reset_exact :
    (∀ (fr : Bool) (addr t : String) (seen seen2 : Finset String)
      (resp : ApiResponse Tx) (transfers incoming alerts : List Tx),
      fetch_transfers resp = some transfers →
      filter_incoming transfers addr t = .ok incoming →
      (∀ tx ∈ incoming, tx.hash ≠ none) →
      transferRound fr addr t seen resp = .ok (seen2, alerts) →
      seen2 = (if MAX_SEEN_HASHES < (seen ∪ idsOf incoming).card then idsOf incoming
        else seen ∪ idsOf incoming)) ∧
    (∀ (oracle : String → Option String) (fr : Bool) (seen seen2 : Finset String)
      (cursor cursor2 : Int) (resp : ApiResponse LogEntry) (logs : List LogEntry)
      (events : List SupplyEvent),
      fetch_aave_supply_logs resp = some logs →
      aaveRound oracle fr seen cursor resp = .ok (seen2, cursor2, events) →
      seen2 = (if MAX_SEEN_HASHES <
          (if fr then seen ∪ aaveHashSet logs
            else seen ∪ (aaveHashSet logs).erase "").card
        then aaveHashSet logs
        else (if fr then seen ∪ aaveHashSet logs
          else seen ∪ (aaveHashSet logs).erase ""))) ∧
    (∀ (c : Int) (address : String) (watch : Bool) (oracle : String → Option String)
      (inputs : List RoundInput),
      (∀ inp ∈ inputs, WindowBounded inp) →
      ∀ st ∈ roundStates address watch oracle (mkInitState c) inputs, SeenBounded st) := by
  refine ⟨?_, ?_, ?_⟩
  · intro fr addr t seen seen2 resp transfers incoming alerts hf hfil hh hrun
    exact (transferRound_ok_spec hf hfil hh hrun).1
  · intro oracle fr seen seen2 cursor cursor2 resp logs events hf hrun
    obtain ⟨-, htrue, hfalse⟩ := aaveRound_ok_spec hf hrun
    cases fr
    · simpa using (hfalse rfl).1
    · simpa using (htrue rfl).1
  · intro c address watch oracle inputs hwin
    exact roundStates_bounded inputs (mkInitState c) (by exact ⟨by simp [mkInitState, MAX_SEEN_HASHES], by simp [mkInitState, MAX_SEEN_HASHES], by simp [mkInitState, MAX_SEEN_HASHES], by simp [mkInitState, MAX_SEEN_HASHES]⟩) hwin

/-- Witness for C4 at a concrete small round: with seen = {"B"} and
window [A], the new seen set is the union (no reset below the bound). -/
theorem seen_set_bounded_and_reset_exact_witness :
    ({"B"} ∪ idsOf [mkTx "0xa" "A" "1"] : Finset String) =
      (if MAX_SEEN_HASHES < (({"B"} : Finset String) ∪ idsOf [mkTx "0xa" "A" "1"]).card
        then idsOf [mkTx "0xa" "A" "1"]
        else ({"B"} : Finset String) ∪ idsOf [mkTx "0xa" "A" "1"]) :=
  seen_set_bounded_and_reset_exact.1 false "0xa" "NFT" {"B"}
    ({"B"} ∪ idsOf [mkTx "0xa" "A" "1"]) (okTxs [mkTx "0xa" "A" "1"])
    [mkTx "0xa" "A" "1"] [mkTx "0xa" "A" "1"] [mkTx "0xa" "A" "1"]
    rfl (by decide) (by decide) (by decide)

end Monitor

namespace Monitor

/-- The 66-character payload (`0x` + 64 hex chars) of the C7
counterexample log. -/
def c7data : String :=
  "0x00000000000000000000000000000000000000000000000000000000000000ab"

example : c7data.length = 66 := by decide

/-- C7 counterexample: a log whose payload is 66 characters (shorter
than 130) decodes with amount 0 as claimed, but its user field is the
embedded address slice, not the sentinel "unknown". -/
theorem short_payload_user_not_unknown_cex :
    (decode_supply_event noSender ⟨some "T", none, some c7data⟩).map
        (fun ev => (ev.user, ev.amount_display)) =
      .ok ("0x00000000000000000000000000000000000000ab", "0") ∧
    c7data.length < 130 ∧
    ("0x00000000000000000000000000000000000000ab" : String) ≠ "unknown" := by
  refine ⟨by decide, by decide, by decide⟩

/-- C7 (amended): decoding a log whose payload is shorter than 130
characters yields amount 0 (displayed "0") and never fails (with the
block-number field parsing, as the default "0x0" does); the user field
is the sentinel "unknown" exactly when the payload is also shorter
than 66 characters, and otherwise is "0x" ++ payload[26:66]. -/
theorem short_payload_decode_graceful (oracle : String → Option String) (lg : LogEntry)
    (bn : Int) (hlen : (lg.data.getD "0x").length < 130)
    (hbn : pyIntHex (lg.blockNumber.getD "0x0") = some bn) :
    decode_supply_event oracle lg = .ok
      ⟨logHashD lg, bn,
        (if logHashD lg ≠ "" then oracle (logHashD lg) else none),
        (if 66 ≤ (lg.data.getD "0x").length
          then "0x" ++ pySlice (lg.data.getD "0x") 26 66 else "unknown"),
        "0"⟩ := by
  unfold decode_supply_event
  simp only []
  rw [if_neg (by omega : ¬ 130 ≤ (lg.data.getD "0x").length)]
  simp only [exceptBind_ok]
  have hf : format_token_amount (intStr 0) "18" = .ok "0" := by decide
  rw [hf]
  simp only [exceptBind_ok]
  rw [hbn]
  rfl

/-- Witness for the amended C7 theorem at the counterexample log. -/
theorem short_payload_decode_graceful_witness :
    decode_supply_event noSender ⟨some "T", none, some c7data⟩ = .ok
      ⟨logHashD ⟨some "T", none, some c7data⟩, 0,
        (if logHashD ⟨some "T", none, some c7data⟩ ≠ ""
          then noSender (logHashD ⟨some "T", none, some c7data⟩) else none),
        (if 66 ≤ ((⟨some "T", none, some c7data⟩ : LogEntry).data.getD "0x").length
          then "0x" ++ pySlice ((⟨some "T", none, some c7data⟩ : LogEntry).data.getD "0x") 26 66
          else "unknown"),
        "0"⟩ :=
  short_payload_decode_graceful noSender ⟨some "T", none, some c7data⟩ 0
    (by decide) (by decide)

end Monitor

namespace Monitor

/-- The malformed ETH transfer of the C10 counterexample: addressed to
the monitored address, no error flag, but a non-numeric value string. -/
def badEthTx : Tx :=
  { toAddr := some "0xa", hash := some "h", isError := none, value := some "abc",
    tokenDecimal := none }

/-- C10 counterexample: a single successful ETH response whose value
field is not an integer literal makes `int(tx.get("value", "0"))` in
`filter_incoming` raise `ValueError` out of the round and out of the
loop. -/
theorem malformed_value_crashes_loop_cex :
    stepMonitor "0xa" false noSender (mkInitState 0)
        ⟨.ok "1" "OK" [badEthTx], emptyTxs, emptyTxs, emptyLogs⟩ = .error .valueError ∧
    runRounds "0xa" false noSender (mkInitState 0)
        [⟨.ok "1" "OK" [badEthTx], emptyTxs, emptyTxs, emptyLogs⟩] = .error .valueError := by
  refine ⟨by decide, by decide⟩

/-- C10 (amended): once started, the loop raises no exception on any
sequence of responses in which transport failures, non-success bodies
and empty results are arbitrary, provided every record of every
successful body is well-formed where the monitor parses it: each
transfer carries a hash key and an integer-literal value field, and
each log's block number (default "0x0") and, for payloads of 130 or
more characters, its amount word parse as hex. Malformed field values
inside a successful body (for example a non-numeric ETH value) escape
as uncaught exceptions — see the counterexample. -/
theorem loop_no_crash_on_wellformed :
    ∀ (address : String) (watch : Bool) (oracle : String → Option String)
      (s : MonitorState) (inputs : List RoundInput),
      (∀ inp ∈ inputs, InputOk inp) →
      isOkE (runRounds address watch oracle s inputs) = true := by
  intro address watch oracle s inputs h
  obtain ⟨r, hr⟩ := runRounds_ok_total inputs s h
  rw [hr]
  rfl

/-- Witness for the amended C10 theorem on a concrete two-round run
mixing a success, failures and empty results. -/
theorem loop_no_crash_on_wellformed_witness :
    isOkE (runRounds "0xa" true noSender (mkInitState 0)
      [⟨okTxs [mkTx "0xa" "A" "5"], emptyTxs, .failure, emptyLogs⟩,
       ⟨.failure, okTxs [mkTx "0xb" "B" "7"], emptyTxs,
         .ok "1" "OK" [⟨some "L", some "0x5", some "0x"⟩]⟩]) = true := by
  apply loop_no_crash_on_wellformed
  intro inp hinp
  rcases List.mem_cons.mp hinp with rfl | h2
  · refine ⟨?_, ?_, ?_, ?_⟩
    · intro l hl tx htx
      have hl2 : l = [mkTx "0xa" "A" "5"] := (Option.some.inj hl).symm
      subst hl2
      rcases List.mem_cons.mp htx with rfl | h3
      · exact ⟨by decide, by decide⟩
      · simp at h3
    · intro l hl tx htx
      have hl2 : l = [] :=
        (Option.some.inj (show some ([] : List Tx) = some l from hl)).symm
      subst hl2
      simp at htx
    · intro l hl tx htx
      exact Option.noConfusion (show (none : Option (List Tx)) = some l from hl)
    · intro l hl lg hlg
      have hl2 : l = [] :=
        (Option.some.inj (show some ([] : List LogEntry) = some l from hl)).symm
      subst hl2
      simp at hlg
  · rcases List.mem_cons.mp h2 with rfl | h3
    · refine ⟨?_, ?_, ?_, ?_⟩
      · intro l hl tx htx
        exact Option.noConfusion (show (none : Option (List Tx)) = some l from hl)
      · intro l hl tx htx
        have hl2 : l = [mkTx "0xb" "B" "7"] := (Option.some.inj hl).symm
        subst hl2
        rcases List.mem_cons.mp htx with rfl | h4
        · exact ⟨by decide, by decide⟩
        · simp at h4
      · intro l hl tx htx
        have hl2 : l = [] :=
          (Option.some.inj (show some ([] : List Tx) = some l from hl)).symm
        subst hl2
        simp at htx
      · intro l hl lg hlg
        have hl2 : l = [⟨some "L", some "0x5", some "0x"⟩] := (Option.some.inj hl).symm
        subst hl2
        rcases List.mem_cons.mp hlg with rfl | h4
        · exact ⟨by decide, by decide⟩
        · simp at h4
    · simp at h3

end Monitor

namespace Monitor

/-! ## C2: dedup idempotence and the reset-eviction counterexample -/

lemma natStr_injective : Function.Injective natStr := by
  intro m n h
  have hdata : digitsOf m = digitsOf n := congrArg String.data h
  have hm := parse_digitsOf m
  rw [hdata, parse_digitsOf n] at hm
  exact hm.symm

/-- A steady-phase window of 1001 pairwise distinct fresh transfers,
each addressed to the monitored address. -/
def c2big : List Tx := (List.range 1001).map (fun i => mkTx "0xa" (natStr i) "1")

/-- The identifier set of that window. -/
def c2bigIds : Finset String := ((List.range 1001).map natStr).toFinset

lemma c2bigIds_card : c2bigIds.card = 1001 := by
  rw [c2bigIds,
    List.toFinset_card_of_nodup ((List.nodup_range 1001).map natStr_injective)]
  simp

lemma h_not_mem_c2bigIds : "h" ∉ c2bigIds := by
  intro hmem
  obtain ⟨i, hi, heq⟩ := List.mem_map.mp (List.mem_toFinset.mp hmem)
  have hdata : digitsOf i = "h".data := congrArg String.data heq
  have hc := digitsOf_all_digits i
  rw [hdata] at hc
  exact absurd (hc 'h' (by decide)) (by decide)

lemma c2big_filter : c2big.filter (recipB (pyLower "0xa")) = c2big := by
  rw [List.filter_eq_self]
  intro tx htx
  obtain ⟨i, hi, rfl⟩ := List.mem_map.mp htx
  rfl

lemma c2big_filter_incoming : filter_incoming c2big "0xa" "NFT" = .ok c2big := by
  have h0 : filter_incoming c2big "0xa" "NFT" =
      .ok (c2big.filter (recipB (pyLower "0xa"))) := rfl
  rw [h0, c2big_filter]

lemma idsOf_c2big : idsOf c2big = c2bigIds := by
  unfold idsOf c2big c2bigIds
  rw [List.map_map]
  apply congrArg List.toFinset
  apply List.map_congr_left
  intro i _
  rfl

lemma c2big_hash_ne_none : ∀ tx ∈ c2big, tx.hash ≠ none := by
  intro tx htx
  obtain ⟨i, hi, rfl⟩ := List.mem_map.mp htx
  intro hcon
  exact Option.noConfusion hcon

lemma c2big_value_ok : ∀ tx ∈ c2big, pyDecimalOk (tx.value.getD "0") = true := by
  intro tx htx
  obtain ⟨i, hi, rfl⟩ := List.mem_map.mp htx
  show pyDecimalOk "1" = true
  decide

end Monitor

namespace Monitor

/-- C2 counterexample: the NFT channel seeds identifier "h"; a next
round whose window holds 1001 fresh identifiers trips the
MAX_SEEN_HASHES reset, replacing the seen set with exactly that
window's identifiers and so evicting "h"; a third round whose window
holds "h" again then re-alerts on it, although "h" had been added to
the seen set earlier and no failure occurred in between. -/
theorem dedup_reset_reintroduces_alert_cex :
    transferRound true "0xa" "NFT" ∅ (okTxs [mkTx "0xa" "h" "1"]) =
        .ok ({"h"}, []) ∧
    (transferRound false "0xa" "NFT" {"h"} (okTxs c2big)).map Prod.fst =
        .ok c2bigIds ∧
    "h" ∉ c2bigIds ∧
    transferRound false "0xa" "NFT" c2bigIds (okTxs [mkTx "0xa" "h" "1"]) =
        .ok ({"h"}, [mkTx "0xa" "h" "1"]) := by
  refine ⟨by decide, ?_, h_not_mem_c2bigIds, ?_⟩
  · obtain ⟨nl, hok, -, -, -, -⟩ :=
      @transferRound_steady "0xa" "NFT" {"h"} (okTxs c2big) c2big c2big
        rfl c2big_filter_incoming c2big_hash_ne_none c2big_value_ok
    rw [hok]
    have hgt : MAX_SEEN_HASHES < (({"h"} : Finset String) ∪ idsOf c2big).card := by
      rw [idsOf_c2big]
      have hsub : c2bigIds ⊆ ({"h"} : Finset String) ∪ c2bigIds :=
        Finset.subset_union_right
      have hle := Finset.card_le_card hsub
      rw [c2bigIds_card] at hle
      have hmax : MAX_SEEN_HASHES = 1000 := rfl
      omega
    rw [exceptMap_ok, if_pos hgt, idsOf_c2big]
  · obtain ⟨nl, hok, hsub, hnots, hnd, hset⟩ :=
      @transferRound_steady "0xa" "NFT" c2bigIds (okTxs [mkTx "0xa" "h" "1"])
        [mkTx "0xa" "h" "1"] [mkTx "0xa" "h" "1"]
        rfl (by decide) (by decide) (by decide)
    have hids : idsOf [mkTx "0xa" "h" "1"] = {"h"} := by decide
    have hgt : MAX_SEEN_HASHES < (c2bigIds ∪ idsOf [mkTx "0xa" "h" "1"]).card := by
      have hsub2 : c2bigIds ⊆ c2bigIds ∪ idsOf [mkTx "0xa" "h" "1"] :=
        Finset.subset_union_left
      have hle := Finset.card_le_card hsub2
      rw [c2bigIds_card] at hle
      have hmax : MAX_SEEN_HASHES = 1000 := rfl
      omega
    have hnl : nl = [mkTx "0xa" "h" "1"] := by
      rcases nl with _ | ⟨a, nl2⟩
      · exfalso
        have hh2 : "h" ∈ (([] : List Tx).map hashD).toFinset := by
          rw [hset, hids]
          exact Finset.mem_sdiff.mpr ⟨Finset.mem_singleton_self "h", h_not_mem_c2bigIds⟩
        simp at hh2
      · have hlen : (a :: nl2).length ≤ 1 := hsub.length_le
        simp only [List.length_cons] at hlen
        have hnl2 : nl2 = [] := List.eq_nil_of_length_eq_zero (by omega)
        subst hnl2
        have ha : a ∈ [mkTx "0xa" "h" "1"] := hsub.subset (List.mem_cons_self a [])
        rw [List.mem_singleton.mp ha]
    subst hnl
    rw [hok, if_pos hgt, hids]
    rfl

end Monitor

namespace Monitor

/-- C2 (amended): dedup is idempotent only while the identifier is
retained in the channel's seen set. In any steady-phase round an
identifier that is currently in the seen set is never alerted, and it
is still in the seen set afterwards provided the round's additions do
not push the set past MAX_SEEN_HASHES (the overflow reset replaces the
set with the current window's identifiers, evicting everything older —
after which the identifier can alert again, see the counterexample). -/
theorem dedup_idempotent_while_retained :
    (∀ (address t : String) (seen seen2 : Finset String) (resp : ApiResponse Tx)
      (transfers incoming alerts : List Tx) (h : String),
      fetch_transfers resp = some transfers →
      filter_incoming transfers address t = .ok incoming →
      (∀ tx ∈ incoming, tx.hash ≠ none) →
      transferRound false address t seen resp = .ok (seen2, alerts) →
      h ∈ seen →
      (∀ tx ∈ alerts, hashD tx ≠ h) ∧
        ((seen ∪ idsOf incoming).card ≤ MAX_SEEN_HASHES → h ∈ seen2)) ∧
    (∀ (oracle : String → Option String) (seen seen2 : Finset String)
      (cursor cursor2 : Int) (resp : ApiResponse LogEntry) (logs : List LogEntry)
      (events : List SupplyEvent) (h : String),
      fetch_aave_supply_logs resp = some logs →
      aaveRound oracle false seen cursor resp = .ok (seen2, cursor2, events) →
      h ∈ seen →
      (∀ ev ∈ events, SupplyEvent.tx_hash ev ≠ h) ∧
        ((seen ∪ (aaveHashSet logs).erase "").card ≤ MAX_SEEN_HASHES → h ∈ seen2)) := by
  constructor
  · intro address t seen seen2 resp transfers incoming alerts h hf hfil hh hrun hmem
    obtain ⟨hseen, -, hsteady⟩ := transferRound_ok_spec hf hfil hh hrun
    obtain ⟨nl, halerts, -, hnots, -, -⟩ := hsteady rfl
    constructor
    · intro tx htx heq
      rw [halerts] at htx
      exact hnots tx (List.mem_reverse.mp htx) (heq ▸ hmem)
    · intro hcard
      have hc : ¬ MAX_SEEN_HASHES < (seen ∪ idsOf incoming).card := by omega
      rw [hseen, if_neg hc]
      exact Finset.mem_union_left _ hmem
  · intro oracle seen seen2 cursor cursor2 resp logs events h hf hrun hmem
    obtain ⟨-, -, hfalse⟩ := aaveRound_ok_spec hf hrun
    obtain ⟨hseen, hmap⟩ := hfalse rfl
    constructor
    · intro ev hev heq
      have hx : SupplyEvent.tx_hash ev ∈ events.map SupplyEvent.tx_hash :=
        List.mem_map_of_mem SupplyEvent.tx_hash hev
      rw [hmap] at hx
      obtain ⟨lg, hlg, hlgeq⟩ := List.mem_map.mp hx
      obtain ⟨-, -, hdiff, -⟩ := aaveDiff_spec logs seen
      exact (hdiff lg hlg).2 (hlgeq ▸ heq ▸ hmem)
    · intro hcard
      have hc : ¬ MAX_SEEN_HASHES < (seen ∪ (aaveHashSet logs).erase "").card := by
        omega
      rw [hseen, if_neg hc]
      exact Finset.mem_union_left _ hmem

/-- Witness for the amended C2 theorem at a concrete retained
identifier on each channel. -/
theorem dedup_idempotent_while_retained_witness :
    ((∀ tx ∈ ([] : List Tx), hashD tx ≠ "A") ∧
      (((({"A"} : Finset String) ∪ idsOf [mkTx "0xa" "A" "1"])).card ≤ MAX_SEEN_HASHES →
        "A" ∈ ({"A"} : Finset String) ∪ idsOf [mkTx "0xa" "A" "1"])) ∧
    ((∀ ev ∈ ([] : List SupplyEvent), SupplyEvent.tx_hash ev ≠ "L") ∧
      (((({"L"} : Finset String) ∪
          (aaveHashSet [⟨some "L", some "0x5", some "0x"⟩]).erase "")).card ≤
          MAX_SEEN_HASHES →
        "L" ∈ ({"L"} : Finset String) ∪
          (aaveHashSet [⟨some "L", some "0x5", some "0x"⟩]).erase "")) := by
  constructor
  · exact dedup_idempotent_while_retained.1 "0xa" "NFT" {"A"}
      (({"A"} : Finset String) ∪ idsOf [mkTx "0xa" "A" "1"])
      (okTxs [mkTx "0xa" "A" "1"]) [mkTx "0xa" "A" "1"] [mkTx "0xa" "A" "1"] [] "A"
      rfl (by decide) (by decide) (by decide) (by decide)
  · exact dedup_idempotent_while_retained.2 noSender {"L"}
      (({"L"} : Finset String) ∪
        (aaveHashSet [⟨some "L", some "0x5", some "0x"⟩]).erase "")
      0 5 (.ok "1" "OK" [⟨some "L", some "0x5", some "0x"⟩])
      [⟨some "L", some "0x5", some "0x"⟩] [] "L"
      rfl (by decide) (by decide)

end Monitor
